import Mathlib

/-!
Verification development for the Johann orchestration engine
(`johann/util.py`, `johann/measure.py`, `johann/score.py`, `johann/player.py`).

The Python source is shallowly embedded as executable Lean definitions.
Celery (the external task-execution substrate) is modelled by the list of
the reported states of a group's child tasks, with `GroupResult.successful()`
meaning every child succeeded and `GroupResult.ready()` meaning every child
reached a terminal state, per the collaborator contract.
-/

set_option maxHeartbeats 1000000

namespace Johann

/-- The `TaskState` enumeration of `johann/shared/enums.py`. -/
inductive TaskState where
  | FAILURE
  | SUCCESS
  | PENDING
  | STARTED
  | RETRY
  | PROGRESS
  | QUEUED
  | DEFERRED
deriving DecidableEq, Repr, Fintype

open TaskState

/-- Model of `task_state_priority` (`johann/util.py`): the index of the state in the
`sorted_pri` list, ordered low to high severity. -/
def task_state_priority : TaskState → Nat
  | SUCCESS => 0
  | PENDING => 1
  | DEFERRED => 2
  | QUEUED => 3
  | STARTED => 4
  | PROGRESS => 5
  | RETRY => 6
  | FAILURE => 7

/-- The running max-severity fold of `celery_group_status`: `ret["state"]`
starts at `PENDING` and is replaced by a child's state whenever that child's
priority is strictly greater. -/
def group_fold_state (children : List TaskState) : TaskState :=
  children.foldl
    (fun acc t => if task_state_priority acc < task_state_priority t then t else acc)
    PENDING

/-- Celery `GroupResult.successful()`: every child task succeeded. -/
def celery_successful (children : List TaskState) : Bool :=
  children.all (fun t => t == SUCCESS)

/-- Celery `GroupResult.ready()`: every child task reached a terminal state. -/
def celery_ready (children : List TaskState) : Bool :=
  children.all (fun t => t == SUCCESS || t == FAILURE)

/-- The `state` and `finished` fields of the dict built by
`celery_group_status` (`johann/util.py`); the progress/count bookkeeping of
that function does not feed back into these two fields and is omitted. -/
structure GroupStatus where
  state : TaskState
  finished : Bool
deriving DecidableEq, Repr

/-- Model of `celery_group_status` (`johann/util.py`) restricted to its `state` and
`finished` fields: the max-severity fold over the children, overridden to
`SUCCESS` when `group_result.successful()`. -/
def celery_group_status (children : List TaskState) : GroupStatus :=
  { state := if celery_successful children then SUCCESS else group_fold_state children
    finished := celery_ready children }

/-- A `Measure` (`johann/measure.py`): static fields plus the mutable
`state`/`status`/`finished` machine. `status_all` models
`measure.status["all"]["all"]`; `celery_group_tasks` maps a player name to
the reported states of the children of the group dispatched for it.
Result-storage fields (`args`, `store_as`, ...) do not affect the claims
about scheduling and state and are omitted. -/
structure Measure where
  name : String
  player_names : List String
  depends_on : List String
  dependency_proof : Bool
  lazy_fetch_stored : Bool
  local_measure : Bool
  state : TaskState
  finished : Bool
  status_all : Option String
  celery_group_tasks : List (String × List TaskState)
deriving DecidableEq, Repr

/-- Model of `Measure.evaluate_state` (`johann/measure.py`) restricted to the fields it
mutates that the claims mention (`state`, `finished`): per-player group
statuses are folded by severity starting from the measure's own state; then
the three conditionals of the source run in order. The `status` copy, the
fresh-failure log and the `store_results` call do not feed back into
`state`/`finished` and are omitted. -/
def Measure.evaluate_state (m : Measure) : Measure :=
  let task_status := m.celery_group_tasks.map (fun pg => celery_group_status pg.2)
  let finishedCount := (task_status.filter (fun ts => ts.finished)).length
  let successCount := (task_status.filter (fun ts => ts.state == SUCCESS)).length
  let st1 := task_status.foldl
    (fun acc ts =>
      if task_state_priority acc < task_state_priority ts.state then ts.state else acc)
    m.state
  let fin1 := if st1 = FAILURE ∧ finishedCount = task_status.length then true else m.finished
  let st2 := if successCount = m.player_names.length then SUCCESS else st1
  let fin2 := if finishedCount = m.player_names.length then true else fin1
  { m with state := st2, finished := fin2 }

/-- Model of `Score.get_measure`: first measure in the score's list with the name. -/
def get_measure (ms : List Measure) (n : String) : Option Measure :=
  ms.find? (fun m => m.name == n)

/-- In-place mutation of the measure object named `n` (measure names are
unique within a score, enforced at load time by `ScoreSchema`). -/
def update_measure (ms : List Measure) (n : String) (f : Measure → Measure) :
    List Measure :=
  ms.map (fun m => if m.name == n then f m else m)

/-- Mutation `m.state = TaskState.DEFERRED` in `Score.smart_queue`. -/
def set_deferred (ms : List Measure) (n : String) : List Measure :=
  update_measure ms n (fun m => { m with state := DEFERRED })

/-- The dependency-failure mutation of `Score.smart_queue`:
`m.state = FAILURE; m.finished = True; m.status["all"]["all"] = ...`. -/
def set_dep_failed (ms : List Measure) (n dep : String) : List Measure :=
  update_measure ms n (fun m =>
    { m with
      state := FAILURE
      finished := true
      status_all := some ("dependency failed (" ++ dep ++ ")") })

/-- Model of `Score.queue_measure`'s state change: `measure.state = TaskState.QUEUED`
(the asynchronous dispatch it fires is modelled by `dispatch_measure`). -/
def set_queued (ms : List Measure) (n : String) : List Measure :=
  update_measure ms n (fun m => { m with state := QUEUED })

/-- The inner `for dep_name in m.depends_on` loop of `Score.smart_queue`,
carrying the evolving measure list, the `ready_to_queue` flag and the
`dependency_failed` accumulator. A dependency name that resolves to no
measure raises `AttributeError` in the source (`none` here); score-level
load validation guarantees it cannot happen on a loaded score. -/
def scan_deps (mname : String) (pf : Bool) :
    List String → List Measure → Bool → List String →
    Option (List Measure × Bool × List String)
  | [], ms, ready, depf => some (ms, ready, depf)
  | d :: rest, ms, ready, depf =>
    match get_measure ms d with
    | none => none
    | some depm =>
      let ms1 := if depm.finished then ms else set_deferred ms mname
      let ready1 := if depm.finished then ready else false
      if depm.state = FAILURE ∧ pf = false then
        scan_deps mname pf rest (set_dep_failed ms1 mname d) false (depf ++ [mname])
      else
        scan_deps mname pf rest ms1 ready1 depf

/-- The `for m in unqueued_measures` scan of `Score.smart_queue`: returns the
evolved measure list, the measure chosen for queueing (the loop breaks at the
first ready one), and the accumulated `dependency_failed` names. The source
iterates over `Measure` objects; they are identified here by name. -/
def smart_queue_scan : List Measure → List String →
    Option (List Measure × Option String × List String)
  | ms, [] => some (ms, none, [])
  | ms, n :: rest =>
    match get_measure ms n with
    | none => none
    | some m =>
      if m.depends_on.isEmpty then some (ms, some n, [])
      else
        match scan_deps n m.dependency_proof m.depends_on ms true [] with
        | none => none
        | some (ms1, ready, depf) =>
          if ready then some (ms1, some n, depf)
          else
            match smart_queue_scan ms1 rest with
            | none => none
            | some (ms2, q, depf2) => some (ms2, q, depf ++ depf2)

/-- Python `list.remove`: removes the first occurrence, here guarded as in
the source (`if x in unqueued_measures: unqueued_measures.remove(x)`), so an
absent element leaves the list unchanged. -/
def list_remove : List String → String → List String
  | [], _ => []
  | a :: rest, x => if a == x then rest else a :: list_remove rest x

/-- Result of one `Score.smart_queue` call: the evolved measures, the evolved
`unqueued_measures` list, and the measure that was queued (if any). -/
structure SQResult where
  measures : List Measure
  unqueued : List String
  queued : Option String
deriving DecidableEq, Repr

/-- Model of `Score.smart_queue` (`johann/score.py`): scan, queue the chosen measure,
remove it from `unqueued_measures`, then remove each `dependency_failed`
measure from `unqueued_measures`. -/
def smart_queue (ms : List Measure) (unq : List String) : Option SQResult :=
  match smart_queue_scan ms unq with
  | none => none
  | some (ms1, toQueue, depFailed) =>
    let ms2 := match toQueue with
      | some n => set_queued ms1 n
      | none => ms1
    let unq1 := match toQueue with
      | some n => list_remove unq n
      | none => unq
    let unq2 := depFailed.foldl (fun u x => list_remove u x) unq1
    some { measures := ms2, unqueued := unq2, queued := toQueue }

/-- A `Host` (`johann/host.py`) restricted to the fields `Player.enqueue`
reads: its identity and the `pending_create` flag. -/
structure Host where
  name : String
  pending_create : Bool
deriving DecidableEq, Repr

/-- A `Player` (`johann/player.py`) restricted to the fields `enqueue` reads. -/
structure Player where
  name : String
  hostnames : List String
deriving DecidableEq, Repr

/-- Lookup in the process-wide `hosts` registry (`johann/shared/config.py`). -/
def hosts_lookup (hostsReg : List (String × Host)) (hostname : String) :
    Option Host :=
  (hostsReg.find? (fun e => e.1 == hostname)).map (fun e => e.2)

/-- One value of `Score.task_map`:
`{"measure_name": ..., "player_name": ..., "host_name": ...}` (the task-id
keys are freshly drawn UUIDs, so the map is modelled as the list of its
values in insertion order). -/
structure TaskMapEntry where
  measure_name : String
  player_name : String
  host_name : String
deriving DecidableEq, Repr

/-- Result of `Player.enqueue`: the success flag, whether the signature group
was submitted via `apply_async` (equivalently, whether a group handle was
returned), and the resulting `score.task_map`. -/
structure EnqueueResult where
  success : Bool
  submitted : Bool
  task_map : List TaskMapEntry
deriving DecidableEq, Repr

/-- The `for hostname in self.hostnames` loop of `Player.enqueue`
(`johann/player.py`): an unresolved hostname or a host still pending creation
(non-local measures only) aborts with failure; otherwise a task signature is
built, the `task_map` entry recorded, and the loop continues. Signature
construction itself always succeeds (`get_task_signature` only logs), so the
`sig is None` branch of the source is unreachable. The per-host
`celery_task_ids` bookkeeping does not affect the claims and is omitted. -/
def enqueue_go (hostsReg : List (String × Host)) (p : Player) (m : Measure) :
    List String → List TaskMapEntry → EnqueueResult
  | [], tm => { success := true, submitted := true, task_map := tm }
  | h :: rest, tm =>
    match hosts_lookup hostsReg h with
    | none => { success := false, submitted := false, task_map := tm }
    | some host =>
      if m.local_measure = false ∧ host.pending_create = true then
        { success := false, submitted := false, task_map := tm }
      else
        enqueue_go hostsReg p m rest
          (tm ++ [{ measure_name := m.name
                    player_name := p.name
                    host_name := host.name }])

/-- Model of `Player.enqueue` (`johann/player.py`). -/
def Player.enqueue (hostsReg : List (String × Host)) (p : Player) (m : Measure)
    (tm : List TaskMapEntry) : EnqueueResult :=
  enqueue_go hostsReg p m p.hostnames tm

/-- The dispatch fired by `Score.queue_measure` for a just-queued measure:
`play_the_player` runs `Player.enqueue` once per player of the measure, each
call extending `score.task_map`. (Argument transformation failures in
`play_the_player` abort a player's dispatch before `enqueue`, recording no
entries for it; either way every recorded entry carries this measure's
name.) -/
def dispatch_measure (hostsReg : List (String × Host)) (players : List Player)
    (m : Measure) (tm : List TaskMapEntry) : List TaskMapEntry :=
  m.player_names.foldl
    (fun acc pn =>
      match players.find? (fun p => p.name == pn) with
      | none => acc
      | some p => (Player.enqueue hostsReg p m acc).task_map)
    tm

/-- The scheduling-loop state of a playing `Score` that the claims mention:
its measures, the `unqueued_measures` working list of `Score.play`, and
`score.task_map`. -/
structure SchedState where
  measures : List Measure
  unqueued : List String
  task_map : List TaskMapEntry
deriving DecidableEq, Repr

/-- One scheduler step of `Score.play`: a `smart_queue` call followed by the
dispatch of the queued measure (if any). -/
def sched_step (hostsReg : List (String × Host)) (players : List Player)
    (s : SchedState) : Option SchedState :=
  match smart_queue s.measures s.unqueued with
  | none => none
  | some r =>
    let tm :=
      match r.queued with
      | some n =>
        match get_measure r.measures n with
        | some m => dispatch_measure hostsReg players m s.task_map
        | none => s.task_map
      | none => s.task_map
    some { measures := r.measures, unqueued := r.unqueued, task_map := tm }

/-- Iterated scheduler steps of the `while True` loop of `Score.play`. -/
def sched_run (hostsReg : List (String × Host)) (players : List Player) :
    SchedState → Nat → Option SchedState
  | s, 0 => some s
  | s, k + 1 =>
    match sched_step hostsReg players s with
    | none => none
    | some s1 => sched_run hostsReg players s1 k

/-- A Python value as stored in `score.stored_data` and passed as a task
argument: integers, strings, lists, and (insertion-ordered) string-keyed
dicts. -/
inductive Value where
  | VInt (n : Int)
  | VStr (s : String)
  | VList (l : List Value)
  | VDict (entries : List (String × Value))

open Value

/-- Python equality `v == tok` between a value and a string: only an equal
string compares equal. -/
def val_eq_str (v : Value) (tok : String) : Bool :=
  match v with
  | VStr s => s == tok
  | _ => false

/-- The `iter(data)` probe of `Score.fetch_stored_data`: strings, lists and
dicts are iterable, integers are not. -/
def iterable : Value → Bool
  | VInt _ => false
  | _ => true

/-- Python substring containment `tok in s` for strings (the empty string is
contained in every string). -/
def py_in_str (tok s : String) : Bool :=
  let p := tok.toList
  let c := s.toList
  (List.range (c.length + 1)).any (fun i => ((c.drop i).take p.length) == p)

/-- Python membership `tok in data`: key lookup for a dict, element equality
for a list, substring for a string; `TypeError` (`none`) for an integer. -/
def py_contains : Value → String → Option Bool
  | VInt _, _ => none
  | VStr s, tok => some (py_in_str tok s)
  | VList l, tok => some (l.any (fun v => val_eq_str v tok))
  | VDict es, tok => some (es.any (fun e => e.1 == tok))

/-- Python subscription `data[tok]` with a string subscript: defined for a
dict; `TypeError` (`none`) for a list, string or integer. -/
def py_getitem_str : Value → String → Option Value
  | VDict es, tok => (es.find? (fun e => e.1 == tok)).map (fun e => e.2)
  | _, _ => none

/-- Python `tok.isdigit()` for the ASCII strings the resolver handles. -/
def is_digit_str (tok : String) : Bool :=
  !tok.isEmpty && tok.toList.all Char.isDigit

/-- Python `int(tok)` on a digit string. -/
def str_to_nat (tok : String) : Nat :=
  tok.toList.foldl (fun n c => n * 10 + (c.toNat - 48)) 0

/-- Positional indexing of `fetch_stored_data`: `data[i]` for a list,
`list(data.values())[i]` for a dict; `none` is the `IndexError` case. -/
def py_positional : Value → Nat → Option Value
  | VList l, i => l.get? i
  | VDict es, i => (es.map (fun e => e.2)).get? i
  | _, _ => none

/-- Outcome of `Score.fetch_stored_data`: success is the source's
`(True, msg, 200, data)` tuple, `clientErr` its `(False, msg, 400, None)`. -/
inductive FetchRes where
  | ok (data : Value)
  | clientErr

/-- The shared subsubkey/subsubsubkey logic of `Score.fetch_stored_data`:
`elif tok in data or (tok.isdigit() and type(data) in [list, dict])`, with
literal lookup tried first and positional indexing as the fallback. Outer
`none` is an uncaught `TypeError` (subscribing a list or string with a
string); `some none` is the 400 client error. -/
def fetch_level (data : Value) (tok : String) : Option (Option Value) :=
  match py_contains data tok with
  | none => none
  | some true =>
    match py_getitem_str data tok with
    | none => none
    | some v => some (some v)
  | some false =>
    if is_digit_str tok
        && (match data with | VList _ => true | VDict _ => true | _ => false) then
      match py_positional data (str_to_nat tok) with
      | none => some none
      | some v => some (some v)
    else
      some none

/-- Python truthiness of the optional key arguments (`if not key`): `None`
and the empty string are falsy. -/
def opt_falsy : Option String → Bool
  | none => true
  | some s => s.isEmpty

/-- Model of `Score.fetch_stored_data` (`johann/score.py`). The result is `none` when
the source would raise an uncaught `TypeError`. -/
def fetch_stored_data (sd : List (String × Value))
    (key subkey subsubkey subsubsubkey : Option String) : Option FetchRes :=
  if opt_falsy key then some (.ok (VDict sd))
  else
    match sd.find? (fun e => e.1 == key.getD "") with
    | none => some .clientErr
    | some e0 =>
      let data0 := e0.2
      if opt_falsy subkey then some (.ok data0)
      else
        match py_contains data0 (subkey.getD "") with
        | none => none
        | some false => some .clientErr
        | some true =>
          match py_getitem_str data0 (subkey.getD "") with
          | none => none
          | some data1 =>
            if opt_falsy subsubkey then some (.ok data1)
            else if iterable data1 = false then some .clientErr
            else
              match fetch_level data1 (subsubkey.getD "") with
              | none => none
              | some none => some .clientErr
              | some (some data2) =>
                if opt_falsy subsubsubkey then some (.ok data2)
                else if iterable data2 = false then some .clientErr
                else
                  match fetch_level data2 (subsubsubkey.getD "") with
                  | none => none
                  | some none => some .clientErr
                  | some (some data3) => some (.ok data3)

/-- A Python `\w` word character (ASCII range, as used by the tokens). -/
def is_word_char (c : Char) : Bool := c.isAlphanum || c == '_'

/-- The Python exceptions the argument resolver can raise. -/
inductive PyErr where
  | valueError
  | keyError
  | typeError
deriving DecidableEq, Repr

/-- Python string comparison (`<` on code points, lexicographic) — this is
the comparison `rand.group(1) > rand.group(2)` performs in
`parse_special_arg`, since the regex groups are strings. -/
def py_str_lt : List Char → List Char → Bool
  | [], [] => false
  | [], _ :: _ => true
  | _ :: _, [] => false
  | a :: s, b :: t => if a == b then py_str_lt s t else decide (a < b)

/-- Python `str.split(sep)` for a one-character separator. -/
def split_on_char (c : Char) : List Char → List (List Char)
  | [] => [[]]
  | a :: rest =>
    let r := split_on_char c rest
    if a == c then [] :: r
    else
      match r with
      | h :: t => (a :: h) :: t
      | [] => [[a]]

/-- Whether a dotted segment matches `\w+(-\w+)*`. -/
def seg_ok (s : List Char) : Bool :=
  !s.isEmpty && (split_on_char '-' s).all (fun c => !c.isEmpty && c.all is_word_char)

/-- Model of `re.fullmatch(r"johann\.stored((\.\w+(-\w+)*)+)", a)`, returning
`keyparts = match.group(1)[1:].split(".")` on success. -/
def stored_fullmatch (a : String) : Option (List String) :=
  let cs := a.toList
  if cs.take 14 == "johann.stored.".toList then
    let parts := split_on_char '.' (cs.drop 14)
    if parts.all seg_ok then some (parts.map (fun p => String.mk p)) else none
  else none

/-- Model of `re.fullmatch(r"johann\.random\.(\d+)-(\d+)", a)`, returning the two
digit-string groups on success. -/
def rand_fullmatch (a : String) : Option (String × String) :=
  let cs := a.toList
  if cs.take 14 == "johann.random.".toList then
    let t := cs.drop 14
    let d1 := t.takeWhile Char.isDigit
    match t.drop d1.length with
    | '-' :: r2 =>
      if d1.isEmpty then none
      else if r2.isEmpty || !(r2.all Char.isDigit) then none
      else some (String.mk d1, String.mk r2)
    | _ => none
  else none

/-- Model of `re.match(r"johann\.(\w+)", a)`: a prefix match with `group(1)` the leading
run of word characters after `johann.`. -/
def arg_type_match (a : String) : Option String :=
  let cs := a.toList
  if cs.take 7 == "johann.".toList then
    let w := (cs.drop 7).takeWhile is_word_char
    if w.isEmpty then none else some (String.mk w)
  else none

/-- Model of `parse_special_arg` (`johann/util.py`). For a stored token the source
returns the fixed-length list `[key, subkey, subsubkey, subsubsubkey]` padded
with `None`; for a random token it returns the two bound strings. Note the
random-range check `rand.group(1) > rand.group(2)` compares the two digit
strings as strings. -/
def parse_special_arg (a : String) :
    Except PyErr (String × List (Option String)) :=
  match arg_type_match a with
  | none => .error .valueError
  | some ty =>
    if !(ty == "random" || ty == "stored") then .error .valueError
    else
      match stored_fullmatch a with
      | some keyparts =>
        match keyparts with
        | [k] => .ok (ty, [some k, none, none, none])
        | [k, s1] => .ok (ty, [some k, some s1, none, none])
        | [k, s1, s2] => .ok (ty, [some k, some s1, some s2, none])
        | [k, s1, s2, s3] => .ok (ty, [some k, some s1, some s2, some s3])
        | _ => .error .keyError
      | none =>
        match rand_fullmatch a with
        | some (lo, hi) =>
          if py_str_lt hi.toList lo.toList then .error .valueError
          else .ok (ty, [some lo, some hi])
        | none => .error .valueError

/-- Python `'.'.join(arg_split)`: raises `TypeError` (`none`) when any member is
`None`. -/
def py_join_dot (parts : List (Option String)) : Option String :=
  if parts.all Option.isSome then
    some (String.intercalate "." (parts.map (fun p => p.getD "")))
  else none

/-- Model of `transform_arg` (`johann/util.py`). `score_name` is `score.name`, `sd`
the score's `stored_data`, `lazy` the owning measure's `lazy_fetch_stored`,
and `draw` stands in for `random.randint` (any function of the two bounds;
the bound-order `ValueError` that `randint` raises is modelled explicitly).
The source's `except ValueError` handler only logs and re-raises, so errors
propagate unchanged. -/
def transform_arg (score_name : String) (sd : List (String × Value))
    (lazy : Bool) (draw : Nat → Nat → Nat) (a : Value) : Except PyErr Value :=
  match a with
  | VStr s =>
    if s.toList.take 7 == "johann.".toList then
      match parse_special_arg s with
      | .error e => .error e
      | .ok (ty, parts) =>
        if ty == "stored" then
          if lazy then
            match py_join_dot parts with
            | none => .error .typeError
            | some tail =>
              .ok (VStr ("johann.stored." ++ score_name ++ "." ++ tail))
          else
            match parts with
            | [k, s1, s2, s3] =>
              match fetch_stored_data sd k s1 s2 s3 with
              | none => .error .typeError
              | some .clientErr => .error .keyError
              | some (.ok data) => .ok data
            | _ => .error .typeError
        else
          match parts with
          | [some lo, some hi] =>
            if str_to_nat hi < str_to_nat lo then .error .valueError
            else .ok (VInt (Int.ofNat (draw (str_to_nat lo) (str_to_nat hi))))
          | _ => .error .typeError
    else .ok a
  | _ => .ok a

/-- Model of `transform_args` applied to a Python `str`: iterating a string yields its
characters, each a one-character string resolved by `transform_arg`. -/
def transform_str_elems (score_name : String) (sd : List (String × Value))
    (lazy : Bool) (draw : Nat → Nat → Nat) (s : String) :
    Except PyErr (List Value) :=
  s.toList.mapM
    (fun c => transform_arg score_name sd lazy draw (VStr (String.mk [c])))

/-- Python dict assignment `new_arg[k] = v` on an insertion-ordered dict:
replaces in place when the key exists, appends otherwise. -/
def dict_set : List (String × Value) → String → Value → List (String × Value)
  | [], k, v => [(k, v)]
  | (k0, v0) :: rest, k, v =>
    if k0 == k then (k0, v) :: rest else (k0, v0) :: dict_set rest k v

/-- The dict branch of `transform_args`: the source iterates `for k, v in a`,
which walks the dict's KEYS and tuple-unpacks each key. A two-character
string key unpacks into its two characters (so `k` becomes the first
character and `v` the second, itself a one-character string that
`transform_args` then iterates); any other key raises `ValueError`. -/
def transform_dict_go (score_name : String) (sd : List (String × Value))
    (lazy : Bool) (draw : Nat → Nat → Nat) :
    List (String × Value) → List (String × Value) →
    Except PyErr (List (String × Value))
  | [], acc => .ok acc
  | (k, _v) :: rest, acc =>
    match k.toList with
    | [c1, c2] =>
      match transform_str_elems score_name sd lazy draw (String.mk [c2]) with
      | .error e => .error e
      | .ok vs =>
        transform_dict_go score_name sd lazy draw rest
          (dict_set acc (String.mk [c1]) (VList vs))
    | _ => .error .valueError

/-- Model of `transform_args` (`johann/util.py`): strings through `transform_arg`,
lists by recursion, dicts via the (faulty) `for k, v in a` iteration, other
values unchanged. -/
def transform_args (score_name : String) (sd : List (String × Value))
    (lazy : Bool) (draw : Nat → Nat → Nat) :
    List Value → Except PyErr (List Value)
  | [] => .ok []
  | a :: rest =>
    match a with
    | VStr s =>
      match transform_arg score_name sd lazy draw (VStr s) with
      | .error e => .error e
      | .ok x =>
        match transform_args score_name sd lazy draw rest with
        | .error e => .error e
        | .ok xs => .ok (x :: xs)
    | VList l =>
      match transform_args score_name sd lazy draw l with
      | .error e => .error e
      | .ok l2 =>
        match transform_args score_name sd lazy draw rest with
        | .error e => .error e
        | .ok xs => .ok (VList l2 :: xs)
    | VDict es =>
      match transform_dict_go score_name sd lazy draw es [] with
      | .error e => .error e
      | .ok es2 =>
        match transform_args score_name sd lazy draw rest with
        | .error e => .error e
        | .ok xs => .ok (VDict es2 :: xs)
    | v =>
      match transform_args score_name sd lazy draw rest with
      | .error e => .error e
      | .ok xs => .ok (v :: xs)

/-! ## Basic facts about the severity order and the group fold -/

theorem task_state_priority_le_seven (t : TaskState) :
    task_state_priority t ≤ 7 := by cases t <;> decide

theorem eq_failure_of_seven_le (t : TaskState)
    (h : 7 ≤ task_state_priority t) : t = FAILURE := by
  cases t <;> first | rfl | exact absurd h (by decide)

theorem group_fold_aux (l : List TaskState) (init : TaskState) :
    (l.foldl
        (fun acc t =>
          if task_state_priority acc < task_state_priority t then t else acc)
        init = init ∨
      l.foldl
        (fun acc t =>
          if task_state_priority acc < task_state_priority t then t else acc)
        init ∈ l) ∧
    task_state_priority init ≤
      task_state_priority
        (l.foldl
          (fun acc t =>
            if task_state_priority acc < task_state_priority t then t else acc)
          init) ∧
    ∀ t ∈ l,
      task_state_priority t ≤
        task_state_priority
          (l.foldl
            (fun acc t =>
              if task_state_priority acc < task_state_priority t then t else acc)
            init) := by
  induction l generalizing init with
  | nil => simp
  | cons h t ih =>
    obtain ⟨ih1, ih2, ih3⟩ :=
      ih (if task_state_priority init < task_state_priority h then h else init)
    simp only [List.foldl_cons]
    refine ⟨?_, ?_, ?_⟩
    · rcases ih1 with h1 | h1
      · rw [h1]
        by_cases hc : task_state_priority init < task_state_priority h
        · rw [if_pos hc]; right; exact List.mem_cons_self _ _
        · rw [if_neg hc]; left; rfl
      · right; exact List.mem_cons_of_mem _ h1
    · refine le_trans ?_ ih2
      by_cases hc : task_state_priority init < task_state_priority h
      · rw [if_pos hc]; exact le_of_lt hc
      · rw [if_neg hc]
    · intro t' ht'
      rcases List.mem_cons.mp ht' with rfl | ht'
      · refine le_trans ?_ ih2
        by_cases hc : task_state_priority init < task_state_priority t'
        · rw [if_pos hc]
        · rw [if_neg hc]; exact Nat.le_of_not_lt hc
      · exact ih3 t' ht'

/-! ## Claim C2 -/

/-- C2: `task_state_priority` defines a strict total order on the eight
`TaskState` values with ascending severity exactly
`SUCCESS < PENDING < DEFERRED < QUEUED < STARTED < PROGRESS < RETRY <
FAILURE`; for distinct states exactly one direction of the order holds, and
`SUCCESS` is the unique minimum. -/
theorem task_state_priority_strict_total_order :
    (task_state_priority SUCCESS < task_state_priority PENDING ∧
      task_state_priority PENDING < task_state_priority DEFERRED ∧
      task_state_priority DEFERRED < task_state_priority QUEUED ∧
      task_state_priority QUEUED < task_state_priority STARTED ∧
      task_state_priority STARTED < task_state_priority PROGRESS ∧
      task_state_priority PROGRESS < task_state_priority RETRY ∧
      task_state_priority RETRY < task_state_priority FAILURE) ∧
    (∀ a b : TaskState,
      a = b ∨ task_state_priority a < task_state_priority b ∨
        task_state_priority b < task_state_priority a) ∧
    (∀ a b : TaskState,
      ¬(task_state_priority a < task_state_priority b ∧
        task_state_priority b < task_state_priority a)) ∧
    (∀ a : TaskState,
      a = SUCCESS ∨ task_state_priority SUCCESS < task_state_priority a) := by
  exact ⟨by decide, by decide, by decide, by decide⟩

/-! ## Claim C1 -/

/-- C1: the group state computed by `celery_group_status` is the
maximum-severity state among the group's tasks (it is one of them and bounds
them all); it is `SUCCESS` iff every task succeeded — in particular an
all-`SUCCESS` group aggregates to `SUCCESS` in any order — and a group
containing a `FAILURE` with all members terminal aggregates to `FAILURE`. -/
theorem celery_group_status_aggregation (l : List TaskState) (h : l ≠ []) :
    (celery_group_status l).state ∈ l ∧
    (∀ t ∈ l,
      task_state_priority t ≤ task_state_priority (celery_group_status l).state) ∧
    ((celery_group_status l).state = SUCCESS ↔ ∀ t ∈ l, t = SUCCESS) ∧
    ((FAILURE ∈ l ∧ ∀ t ∈ l, t = SUCCESS ∨ t = FAILURE) →
      (celery_group_status l).state = FAILURE) := by
  by_cases hs : celery_successful l = true
  · have hall : ∀ t ∈ l, t = SUCCESS := by
      intro t ht
      have := (List.all_eq_true.mp hs) t ht
      exact eq_of_beq this
    have hstate : (celery_group_status l).state = SUCCESS := by
      simp [celery_group_status, hs]
    refine ⟨?_, ?_, ?_, ?_⟩
    · rw [hstate]
      obtain ⟨a, rest, rfl⟩ := List.exists_cons_of_ne_nil h
      have := hall a (List.mem_cons_self _ _)
      rw [← this]; exact List.mem_cons_self _ _
    · intro t ht
      rw [hstate, hall t ht]
    · exact ⟨fun _ => hall, fun _ => hstate⟩
    · rintro ⟨hf, -⟩
      have := hall FAILURE hf
      exact absurd this (by decide)
  · obtain ⟨t0, ht0, ht0ne⟩ : ∃ t ∈ l, t ≠ SUCCESS := by
      by_contra hc
      push_neg at hc
      exact hs (List.all_eq_true.mpr fun t ht => beq_iff_eq.mpr (hc t ht))
    have hstate : (celery_group_status l).state = group_fold_state l := by
      simp [celery_group_status, hs]
    obtain ⟨haux1, haux2, haux3⟩ := group_fold_aux l PENDING
    have hmem : (celery_group_status l).state ∈ l := by
      rw [hstate]
      rcases haux1 with h1 | h1
      · rw [group_fold_state, h1]
        have hb := haux3 t0 ht0
        rw [h1] at hb
        have : t0 = PENDING := by
          revert ht0ne hb; cases t0 <;> decide
        rw [← this]; exact ht0
      · exact h1
    have hmax : ∀ t ∈ l,
        task_state_priority t ≤
          task_state_priority (celery_group_status l).state := by
      intro t ht; rw [hstate]; exact haux3 t ht
    have hnotsucc : (celery_group_status l).state ≠ SUCCESS := by
      intro hcontra
      have h1 : (1 : Nat) ≤ task_state_priority (celery_group_status l).state := by
        rw [hstate]; exact haux2
      rw [hcontra] at h1
      exact absurd h1 (by decide)
    refine ⟨hmem, hmax, ⟨fun hc => absurd hc hnotsucc, fun hc => ?_⟩, ?_⟩
    · exact absurd (hc t0 ht0) ht0ne
    · rintro ⟨hf, -⟩
      have h7 : 7 ≤ task_state_priority (celery_group_status l).state := hmax FAILURE hf
      exact eq_failure_of_seven_le _ h7

/-- Witness for C1 at the concrete group `[SUCCESS, FAILURE]`. -/
theorem celery_group_status_aggregation_witness :
    (([SUCCESS, FAILURE] : List TaskState) ≠ []) ∧
    ((celery_group_status [SUCCESS, FAILURE]).state ∈
        ([SUCCESS, FAILURE] : List TaskState) ∧
      (∀ t ∈ ([SUCCESS, FAILURE] : List TaskState),
        task_state_priority t ≤
          task_state_priority (celery_group_status [SUCCESS, FAILURE]).state) ∧
      ((celery_group_status [SUCCESS, FAILURE]).state = SUCCESS ↔
        ∀ t ∈ ([SUCCESS, FAILURE] : List TaskState), t = SUCCESS) ∧
      ((FAILURE ∈ ([SUCCESS, FAILURE] : List TaskState) ∧
          ∀ t ∈ ([SUCCESS, FAILURE] : List TaskState), t = SUCCESS ∨ t = FAILURE) →
        (celery_group_status [SUCCESS, FAILURE]).state = FAILURE)) :=
  ⟨by decide, celery_group_status_aggregation [SUCCESS, FAILURE] (by decide)⟩

/-! ## Claim C10 -/

/-- C10: `Measure.evaluate_state` marks the measure finished whenever its
state is `FAILURE` and every player group actually present in
`celery_group_tasks` reports finished — the quantification is over dispatched
groups, not over `player_names`, so a `FAILURE` measure with zero dispatched
groups is finished immediately regardless of its named players. -/
theorem evaluate_state_failure_finished (m : Measure)
    (h1 : m.state = FAILURE)
    (h2 : ∀ g ∈ m.celery_group_tasks, (celery_group_status g.2).finished = true) :
    (Measure.evaluate_state m).finished = true := by
  unfold Measure.evaluate_state
  simp only
  have hst : (m.celery_group_tasks.map (fun pg => celery_group_status pg.2)).foldl
      (fun acc ts =>
        if task_state_priority acc < task_state_priority ts.state then ts.state
        else acc)
      m.state = FAILURE := by
    rw [h1]
    generalize m.celery_group_tasks.map (fun pg => celery_group_status pg.2) = ts
    induction ts with
    | nil => rfl
    | cons a t ih =>
      rw [List.foldl_cons, if_neg, ih]
      exact Nat.not_lt.mpr (by exact task_state_priority_le_seven a.state)
  have hfilter :
      ((m.celery_group_tasks.map (fun pg => celery_group_status pg.2)).filter
          (fun ts => ts.finished)) =
        m.celery_group_tasks.map (fun pg => celery_group_status pg.2) := by
    apply List.filter_eq_self.mpr
    intro ts hts
    obtain ⟨g, hg, rfl⟩ := List.mem_map.mp hts
    exact h2 g hg
  rw [hst, hfilter]
  simp

/-- Concrete instance for the C10 witness: a `FAILURE` measure with a named
player but no dispatched groups. -/
def m10 : Measure :=
  { name := "m"
    player_names := ["p"]
    depends_on := []
    dependency_proof := false
    lazy_fetch_stored := false
    local_measure := false
    state := FAILURE
    finished := false
    status_all := none
    celery_group_tasks := [] }

/-- Witness for C10 at `m10`. -/
theorem evaluate_state_failure_finished_witness :
    m10.state = FAILURE ∧
    (∀ g ∈ m10.celery_group_tasks, (celery_group_status g.2).finished = true) ∧
    (Measure.evaluate_state m10).finished = true :=
  by
  refine ⟨rfl, ?_, ?_⟩
  · intro g hg
    exact absurd hg (by simp [m10])
  · exact evaluate_state_failure_finished m10 rfl
      (by intro g hg; exact absurd hg (by simp [m10]))

/-! ## Claim C5 -/

/-- Stored data with `stored_data["r"]["p1"] = {"hostA": 1, "hostB": 2}`. -/
def sd_hosts : List (String × Value) :=
  [("r", VDict [("p1", VDict [("hostA", VInt 1), ("hostB", VInt 2)])])]

/-- Stored data whose `["r"]["p1"]` is a list containing the literal string
`"1"`. -/
def sd_listlit : List (String × Value) :=
  [("r", VDict [("p1", VList [VStr "a", VStr "1", VStr "b"])])]

/-- C5: positional indexing at the subsubkey level behaves as claimed on a
mapping container (`"1"` yields the second insertion-ordered value, `"5"` is
a 400 client error), but on a list container that happens to contain the
literal token `"1"` the source takes the membership branch and evaluates
`data["1"]` on a list, raising an uncaught `TypeError` (`none`) instead of
returning the element at index 1. -/
theorem fetch_stored_data_positional_levels :
    fetch_stored_data sd_hosts (some "r") (some "p1") (some "1") none =
      some (.ok (VInt 2)) ∧
    fetch_stored_data sd_hosts (some "r") (some "p1") (some "5") none =
      some .clientErr ∧
    fetch_stored_data sd_listlit (some "r") (some "p1") (some "1") none = none :=
  ⟨rfl, rfl, rfl⟩

/-! ## Claim C6 -/

/-- C6: `parse_special_arg` compares the two digit-string groups of a random
token as strings, not integers. `"johann.random.2-10"` (numerically
`2 ≤ 10`) is rejected with `ValueError` because `"2" > "10"`
lexicographically, while `"johann.random.10-2"` (numerically `10 > 2`) is
accepted; the same-length examples `"5-5"` and `"9-3"` behave as the claim
states. -/
theorem parse_special_arg_random_bounds :
    parse_special_arg "johann.random.2-10" = .error .valueError ∧
    str_to_nat "2" ≤ str_to_nat "10" ∧
    parse_special_arg "johann.random.10-2" =
      .ok ("random", [some "10", some "2"]) ∧
    str_to_nat "2" < str_to_nat "10" ∧
    parse_special_arg "johann.random.5-5" =
      .ok ("random", [some "5", some "5"]) ∧
    parse_special_arg "johann.random.9-3" = .error .valueError :=
  ⟨rfl, by decide, rfl, by decide, rfl, rfl⟩

/-! ## Claim C7 -/

/-- A fixed stand-in for `random.randint` (the lazy stored path never draws). -/
def draw0 : Nat → Nat → Nat := fun lo _ => lo

/-- C7: with `lazy_fetch_stored=true`, `transform_arg` builds the rewritten
token via `'.'.join(arg_split)` where `arg_split` is always the 4-element
list padded with `None`; for stored tokens of 1-3 segments the join raises
an uncaught `TypeError`, and only a 4-segment token is actually rewritten to
include the score name. -/
theorem transform_arg_lazy_rewrite :
    transform_arg "myscore" [] true draw0 (VStr "johann.stored.mykey") =
      .error .typeError ∧
    transform_arg "myscore" [] true draw0 (VStr "johann.stored.a.b") =
      .error .typeError ∧
    transform_arg "myscore" [] true draw0 (VStr "johann.stored.a.b.c") =
      .error .typeError ∧
    transform_arg "myscore" [] true draw0 (VStr "johann.stored.k.s.ss.sss") =
      .ok (VStr "johann.stored.myscore.k.s.ss.sss") :=
  ⟨rfl, rfl, rfl, rfl⟩

/-! ## Claim C8 -/

/-- C8: `transform_args` iterates a mapping argument with `for k, v in a`,
which walks the dict's keys and tuple-unpacks each key: a normal key such as
`"key"` raises `ValueError` instead of returning the mapping with resolved
values, and a two-character key `"ab"` is silently mangled into
`{"a": ["b"]}`. List-valued arguments and plain values behave as claimed. -/
theorem transform_args_mapping_iteration :
    transform_args "s" [] false draw0 [VDict [("key", VInt 1)]] =
      .error .valueError ∧
    transform_args "s" [] false draw0 [VDict [("ab", VInt 7)]] =
      .ok [VDict [("a", VList [VStr "b"])]] ∧
    transform_args "s" [] false draw0 [VInt 3, VList [VStr "x"]] =
      .ok [VInt 3, VList [VStr "x"]] := by
  refine ⟨?_, ?_, ?_⟩ <;> simp only [transform_args] <;> rfl

/-! ## Claim C9 -/

/-- Concrete player for the C9 counterexample: two hostnames, the second
unknown to the host registry. -/
def p9 : Player := { name := "p1", hostnames := ["h1", "hX"] }

/-- Host registry resolving only `"h1"`. -/
def hreg9 : List (String × Host) := [("h1", { name := "h1", pending_create := false })]

/-- Concrete (local) measure for the C9 counterexample. -/
def m9 : Measure :=
  { name := "m1"
    player_names := ["p1"]
    depends_on := []
    dependency_proof := false
    lazy_fetch_stored := false
    local_measure := true
    state := QUEUED
    finished := false
    status_all := none
    celery_group_tasks := [] }

/-- C9 counterexample: an enqueue that hits an unresolved hostname does fail
without submitting, but the score's `task_map` is NOT left unchanged — the
entry for the hostname resolved before the unresolved one has already been
recorded. -/
theorem enqueue_unresolved_host_counterexample :
    (Player.enqueue hreg9 p9 m9 []).success = false ∧
    (Player.enqueue hreg9 p9 m9 []).submitted = false ∧
    (Player.enqueue hreg9 p9 m9 []).task_map ≠ [] ∧
    (Player.enqueue hreg9 p9 m9 []).task_map =
      [{ measure_name := "m1", player_name := "p1", host_name := "h1" }] :=
  ⟨rfl, rfl, by decide, rfl⟩

/-- The `task_map` entries recorded for the prefix of hostnames that resolve
in the registry. -/
def resolved_entries (hostsReg : List (String × Host)) (p : Player)
    (m : Measure) (hs : List String) : List TaskMapEntry :=
  (hs.takeWhile (fun h => (hosts_lookup hostsReg h).isSome)).filterMap
    (fun h => (hosts_lookup hostsReg h).map
      (fun host =>
        { measure_name := m.name, player_name := p.name, host_name := host.name }))

theorem enqueue_go_unresolved (hostsReg : List (String × Host)) (p : Player)
    (m : Measure) (hlocal : m.local_measure = true) :
    ∀ (hs : List String) (tm : List TaskMapEntry),
      (∃ h ∈ hs, hosts_lookup hostsReg h = none) →
      enqueue_go hostsReg p m hs tm =
        { success := false
          submitted := false
          task_map := tm ++ resolved_entries hostsReg p m hs } := by
  intro hs
  induction hs with
  | nil =>
    intro tm hbad
    obtain ⟨h, hmem, -⟩ := hbad
    exact absurd hmem (List.not_mem_nil h)
  | cons h rest ih =>
    intro tm hbad
    cases hlook : hosts_lookup hostsReg h with
    | none =>
      simp [enqueue_go, hlook, resolved_entries, List.takeWhile]
    | some host =>
      have hcond : ¬(m.local_measure = false ∧ host.pending_create = true) := by
        rw [hlocal]; rintro ⟨hc, -⟩; exact absurd hc (by decide)
      have hbad' : ∃ h₂ ∈ rest, hosts_lookup hostsReg h₂ = none := by
        obtain ⟨h₂, hmem, hn⟩ := hbad
        rcases List.mem_cons.mp hmem with rfl | hmem₂
        · rw [hlook] at hn; exact absurd hn (by simp)
        · exact ⟨h₂, hmem₂, hn⟩
      rw [enqueue_go, hlook]
      simp only [if_neg hcond]
      rw [ih _ hbad']
      have hENT : resolved_entries hostsReg p m (h :: rest) =
          { measure_name := m.name, player_name := p.name,
            host_name := host.name } :: resolved_entries hostsReg p m rest := by
        simp [resolved_entries, List.takeWhile, hlook]
      rw [hENT]
      simp

/-- C9 (amended): an enqueue with some unresolved hostname returns failure
with no group handle and submits nothing, and the entries added to the
score's `task_map` are exactly those for the hostnames resolved before the
first unresolved one (stated here for local-measure dispatch, which has no
`pending_create` abort). -/
theorem enqueue_unresolved_host_fails (hostsReg : List (String × Host))
    (p : Player) (m : Measure) (tm : List TaskMapEntry)
    (hlocal : m.local_measure = true)
    (hbad : ∃ h ∈ p.hostnames, hosts_lookup hostsReg h = none) :
    (Player.enqueue hostsReg p m tm).success = false ∧
    (Player.enqueue hostsReg p m tm).submitted = false ∧
    (Player.enqueue hostsReg p m tm).task_map =
      tm ++ resolved_entries hostsReg p m p.hostnames := by
  have := enqueue_go_unresolved hostsReg p m hlocal p.hostnames tm hbad
  rw [Player.enqueue, this]
  exact ⟨rfl, rfl, rfl⟩

/-- Witness for C9 (amended) at the counterexample instance. -/
theorem enqueue_unresolved_host_fails_witness :
    m9.local_measure = true ∧
    (∃ h ∈ p9.hostnames, hosts_lookup hreg9 h = none) ∧
    ((Player.enqueue hreg9 p9 m9 []).success = false ∧
      (Player.enqueue hreg9 p9 m9 []).submitted = false ∧
      (Player.enqueue hreg9 p9 m9 []).task_map =
        [] ++ resolved_entries hreg9 p9 m9 p9.hostnames) :=
  ⟨rfl, ⟨"hX", by decide, rfl⟩,
    enqueue_unresolved_host_fails hreg9 p9 m9 [] rfl ⟨"hX", by decide, rfl⟩⟩

/-! ## Lemmas about measure lookup and in-place mutation -/

theorem get_measure_name (ms : List Measure) (n : String) (m : Measure)
    (h : get_measure ms n = some m) : m.name = n := by
  have := List.find?_some h
  exact beq_iff_eq.mp this

theorem get_update_measure (ms : List Measure) (x : String) (f : Measure → Measure)
    (hf : ∀ m, (f m).name = m.name) (n : String) :
    get_measure (update_measure ms x f) n =
      if n = x then (get_measure ms n).map f else get_measure ms n := by
  have hg : ∀ mm : Measure,
      (if (mm.name == x) = true then f mm else mm).name = mm.name := by
    intro mm
    split
    · exact hf mm
    · rfl
  have h1 : get_measure (update_measure ms x f) n =
      (get_measure ms n).map
        (fun mm => if (mm.name == x) = true then f mm else mm) := by
    simp only [get_measure, update_measure]
    rw [List.find?_map]
    have hpe : ((fun m : Measure => m.name == n) ∘
          fun m => if (m.name == x) = true then f m else m) =
        (fun m : Measure => m.name == n) := by
      funext mm
      simp only [Function.comp]
      rw [hg mm]
    rw [hpe]
  rw [h1]
  cases hm : get_measure ms n with
  | none => split <;> rfl
  | some mm =>
    have hname := get_measure_name ms n mm hm
    by_cases hnx : n = x
    · rw [if_pos hnx, Option.map_some', Option.map_some']
      rw [if_pos (beq_iff_eq.mpr (by rw [hname, hnx]))]
    · rw [if_neg hnx, Option.map_some']
      rw [if_neg (by rw [hname]; simpa using hnx)]

theorem get_update_proj {α : Type} (g : Measure → α) (ms : List Measure)
    (x : String) (f : Measure → Measure) (n : String)
    (hf : ∀ m, (f m).name = m.name) (hg : ∀ m, g (f m) = g m) :
    (get_measure (update_measure ms x f) n).map g = (get_measure ms n).map g := by
  rw [get_update_measure ms x f hf n]
  split
  · cases get_measure ms n <;> simp [hg]
  · rfl

theorem get_set_deferred (ms : List Measure) (x n : String) :
    get_measure (set_deferred ms x) n =
      if n = x then (get_measure ms n).map (fun m => { m with state := DEFERRED })
      else get_measure ms n :=
  get_update_measure ms x (fun m => { m with state := DEFERRED }) (fun _ => rfl) n

theorem get_set_dep_failed (ms : List Measure) (x dep n : String) :
    get_measure (set_dep_failed ms x dep) n =
      if n = x then
        (get_measure ms n).map (fun m =>
          { m with
            state := FAILURE
            finished := true
            status_all := some ("dependency failed (" ++ dep ++ ")") })
      else get_measure ms n :=
  get_update_measure ms x
    (fun m =>
      { m with
        state := FAILURE
        finished := true
        status_all := some ("dependency failed (" ++ dep ++ ")") })
    (fun _ => rfl) n

theorem get_set_queued (ms : List Measure) (x n : String) :
    get_measure (set_queued ms x) n =
      if n = x then (get_measure ms n).map (fun m => { m with state := QUEUED })
      else get_measure ms n :=
  get_update_measure ms x (fun m => { m with state := QUEUED }) (fun _ => rfl) n

theorem get_set_deferred_ne (ms : List Measure) (x n : String) (h : n ≠ x) :
    get_measure (set_deferred ms x) n = get_measure ms n := by
  rw [get_set_deferred, if_neg h]

theorem get_set_dep_failed_ne (ms : List Measure) (x dep n : String) (h : n ≠ x) :
    get_measure (set_dep_failed ms x dep) n = get_measure ms n := by
  rw [get_set_dep_failed, if_neg h]

theorem get_set_queued_ne (ms : List Measure) (x n : String) (h : n ≠ x) :
    get_measure (set_queued ms x) n = get_measure ms n := by
  rw [get_set_queued, if_neg h]

theorem deps_map_set_deferred (ms : List Measure) (x n : String) :
    (get_measure (set_deferred ms x) n).map (fun mm => mm.depends_on) =
      (get_measure ms n).map (fun mm => mm.depends_on) :=
  get_update_proj _ ms x _ n (fun _ => rfl) (fun _ => rfl)

theorem deps_map_set_dep_failed (ms : List Measure) (x dep n : String) :
    (get_measure (set_dep_failed ms x dep) n).map (fun mm => mm.depends_on) =
      (get_measure ms n).map (fun mm => mm.depends_on) :=
  get_update_proj _ ms x _ n (fun _ => rfl) (fun _ => rfl)

theorem fin_map_set_deferred (ms : List Measure) (x n : String) :
    (get_measure (set_deferred ms x) n).map (fun mm => mm.finished) =
      (get_measure ms n).map (fun mm => mm.finished) :=
  get_update_proj _ ms x _ n (fun _ => rfl) (fun _ => rfl)

theorem isSome_of_map_eq {α β : Type} {o1 o2 : Option α} (g : α → β)
    (h : o1.map g = o2.map g) : o1.isSome = o2.isSome := by
  cases o1 <;> cases o2 <;> simp_all

theorem set_deferred_idem (ms : List Measure) (n : String) :
    set_deferred (set_deferred ms n) n = set_deferred ms n := by
  simp only [set_deferred, update_measure, List.map_map]
  induction ms with
  | nil => rfl
  | cons m t ih =>
    simp only [List.map_cons, Function.comp] at *
    rw [ih]
    by_cases hmn : m.name = n
    · simp [beq_iff_eq.mpr hmn]
    · simp [by simpa using hmn]

/-! ## Lemmas about `list_remove` -/

theorem mem_of_mem_list_remove {l : List String} {x y : String}
    (h : y ∈ list_remove l x) : y ∈ l := by
  induction l with
  | nil => exact absurd h (List.not_mem_nil y)
  | cons a t ih =>
    rw [list_remove] at h
    by_cases hax : a = x
    · rw [if_pos (beq_iff_eq.mpr hax)] at h
      exact List.mem_cons_of_mem _ h
    · rw [if_neg (by simpa using hax)] at h
      rcases List.mem_cons.mp h with rfl | h2
      · exact List.mem_cons_self _ _
      · exact List.mem_cons_of_mem _ (ih h2)

theorem not_mem_list_remove {l : List String} {x y : String} (h : y ∉ l) :
    y ∉ list_remove l x :=
  fun hc => h (mem_of_mem_list_remove hc)

theorem list_remove_cons_ne (a x : String) (l : List String) (h : a ≠ x) :
    list_remove (a :: l) x = a :: list_remove l x := by
  rw [list_remove, if_neg (by simpa using h)]

theorem list_remove_cons_self (x : String) (l : List String) :
    list_remove (x :: l) x = l := by
  rw [list_remove, if_pos (beq_iff_eq.mpr rfl)]

theorem fold_remove_not_mem (x : String) :
    ∀ (depf : List String) (u : List String), x ∉ u →
      x ∉ depf.foldl (fun u y => list_remove u y) u := by
  intro depf
  induction depf with
  | nil => intro u h; exact h
  | cons d rest ih =>
    intro u h
    exact ih _ (not_mem_list_remove h)

theorem fold_remove_kills_head (x : String) :
    ∀ (depf : List String) (r : List String), x ∈ depf → x ∉ r →
      x ∉ depf.foldl (fun u y => list_remove u y) (x :: r) := by
  intro depf
  induction depf with
  | nil => intro r hx _; exact absurd hx (List.not_mem_nil x)
  | cons d rest ih =>
    intro r hx hr
    simp only [List.foldl_cons]
    by_cases hdx : d = x
    · subst hdx
      rw [list_remove_cons_self]
      exact fold_remove_not_mem d rest r hr
    · rw [list_remove_cons_ne x d r (fun hc => hdx hc.symm)]
      rcases List.mem_cons.mp hx with rfl | hx2
      · exact absurd rfl hdx
      · exact ih _ hx2 (not_mem_list_remove hr)

theorem mem_fold_remove {x : String} :
    ∀ (depf : List String) (u : List String),
      x ∈ depf.foldl (fun u y => list_remove u y) u → x ∈ u := by
  intro depf
  induction depf with
  | nil => intro u h; exact h
  | cons d rest ih =>
    intro u h
    exact mem_of_mem_list_remove (ih _ h)

/-! ## Behaviour of the dependency loop of `smart_queue` -/

theorem scan_deps_total (mname : String) (pf : Bool) :
    ∀ (deps : List String) (ms : List Measure) (ready : Bool) (depf : List String),
      (∀ d ∈ deps, (get_measure ms d).isSome) →
      ∃ ms1 ready1 depf1,
        scan_deps mname pf deps ms ready depf = some (ms1, ready1, depf1) ∧
        (∀ x, x ≠ mname → get_measure ms1 x = get_measure ms x) ∧
        (∀ x, (get_measure ms1 x).map (fun mm => mm.depends_on) =
          (get_measure ms x).map (fun mm => mm.depends_on)) := by
  intro deps
  induction deps with
  | nil =>
    intro ms ready depf _
    exact ⟨ms, ready, depf, rfl, fun _ _ => rfl, fun _ => rfl⟩
  | cons d rest ih =>
    intro ms ready depf hall
    obtain ⟨depm, hd⟩ :=
      Option.isSome_iff_exists.mp (hall d (List.mem_cons_self d rest))
    have hne0 : ∀ x, x ≠ mname →
        get_measure (if depm.finished then ms else set_deferred ms mname) x =
          get_measure ms x := by
      intro x hx
      split
      · rfl
      · rw [get_set_deferred_ne _ _ _ hx]
    have hdm0 : ∀ x,
        (get_measure (if depm.finished then ms else set_deferred ms mname) x).map
            (fun mm => mm.depends_on) =
          (get_measure ms x).map (fun mm => mm.depends_on) := by
      intro x
      split
      · rfl
      · rw [deps_map_set_deferred]
    by_cases hfail : depm.state = FAILURE ∧ pf = false
    · have hne1 : ∀ x, x ≠ mname →
          get_measure
              (set_dep_failed (if depm.finished then ms else set_deferred ms mname)
                mname d) x =
            get_measure ms x := by
        intro x hx
        rw [get_set_dep_failed_ne _ _ _ _ hx, hne0 x hx]
      have hdm1 : ∀ x,
          (get_measure
              (set_dep_failed (if depm.finished then ms else set_deferred ms mname)
                mname d) x).map (fun mm => mm.depends_on) =
            (get_measure ms x).map (fun mm => mm.depends_on) := by
        intro x
        rw [deps_map_set_dep_failed, hdm0 x]
      have hrest : ∀ d' ∈ rest,
          (get_measure
              (set_dep_failed (if depm.finished then ms else set_deferred ms mname)
                mname d) d').isSome := by
        intro d' hd'
        rw [isSome_of_map_eq _ (hdm1 d')]
        exact hall d' (List.mem_cons_of_mem _ hd')
      obtain ⟨ms1, ready1, depf1, heq, hneI, hdmI⟩ :=
        ih _ false (depf ++ [mname]) hrest
      refine ⟨ms1, ready1, depf1, ?_, ?_, ?_⟩
      · simp only [scan_deps, hd]
        rw [if_pos hfail]
        exact heq
      · intro x hx
        rw [hneI x hx, hne1 x hx]
      · intro x
        rw [hdmI x, hdm1 x]
    · have hrest : ∀ d' ∈ rest,
          (get_measure (if depm.finished then ms else set_deferred ms mname) d').isSome := by
        intro d' hd'
        rw [isSome_of_map_eq _ (hdm0 d')]
        exact hall d' (List.mem_cons_of_mem _ hd')
      obtain ⟨ms1, ready1, depf1, heq, hneI, hdmI⟩ :=
        ih _ (if depm.finished then ready else false) depf hrest
      refine ⟨ms1, ready1, depf1, ?_, ?_, ?_⟩
      · simp only [scan_deps, hd]
        rw [if_neg hfail]
        exact heq
      · intro x hx
        rw [hneI x hx, hne0 x hx]
      · intro x
        rw [hdmI x, hdm0 x]

theorem scan_deps_finished (mname : String) :
    ∀ (deps : List String) (ms : List Measure) (ready : Bool) (depf : List String),
      mname ∉ deps →
      (get_measure ms mname).isSome →
      (∀ d ∈ deps, ∃ dm, get_measure ms d = some dm ∧ dm.finished = true) →
      ∃ ms1 ready1 depf1,
        scan_deps mname false deps ms ready depf = some (ms1, ready1, depf1) ∧
        (∀ x, x ≠ mname → get_measure ms1 x = get_measure ms x) ∧
        ((∃ d ∈ deps, ∃ dm, get_measure ms d = some dm ∧ dm.state = FAILURE) →
          ready1 = false ∧ mname ∈ depf1 ∧
          ∃ m1, get_measure ms1 mname = some m1 ∧
            m1.state = FAILURE ∧ m1.finished = true) ∧
        ((∀ d ∈ deps, ∀ dm, get_measure ms d = some dm → dm.state ≠ FAILURE) →
          ms1 = ms ∧ ready1 = ready ∧ depf1 = depf) := by
  intro deps
  induction deps with
  | nil =>
    intro ms ready depf _ _ _
    refine ⟨ms, ready, depf, rfl, fun _ _ => rfl, ?_, fun _ => ⟨rfl, rfl, rfl⟩⟩
    rintro ⟨d, hd, -⟩
    exact absurd hd (List.not_mem_nil d)
  | cons d rest ih =>
    intro ms ready depf hnotin hsome hall
    obtain ⟨dm, hd, hdfin⟩ := hall d (List.mem_cons_self d rest)
    have hmd : mname ≠ d := fun hc => hnotin (hc ▸ List.mem_cons_self d rest)
    have hnotin' : mname ∉ rest := fun hc => hnotin (List.mem_cons_of_mem _ hc)
    by_cases hF : dm.state = FAILURE
    · -- the dependency-failed branch fires
      have hgetF : get_measure (set_dep_failed ms mname d) mname =
          (get_measure ms mname).map (fun m =>
            { m with
              state := FAILURE
              finished := true
              status_all := some ("dependency failed (" ++ d ++ ")") }) := by
        rw [get_set_dep_failed, if_pos rfl]
      obtain ⟨m0, hm0⟩ := Option.isSome_iff_exists.mp hsome
      have hrest : ∀ d' ∈ rest, ∃ dm', get_measure (set_dep_failed ms mname d) d' =
          some dm' ∧ dm'.finished = true := by
        intro d' hd'
        have hd'ne : d' ≠ mname := fun hc => hnotin' (hc ▸ hd')
        rw [get_set_dep_failed_ne _ _ _ _ hd'ne]
        exact hall d' (List.mem_cons_of_mem _ hd')
      obtain ⟨ms1, ready1, depf1, heq, hne1, hfail1, hnofail1⟩ :=
        ih (set_dep_failed ms mname d) false (depf ++ [mname]) hnotin'
          (by rw [hgetF, hm0]; rfl) hrest
      refine ⟨ms1, ready1, depf1, ?_, ?_, ?_, ?_⟩
      · simp only [scan_deps, hd, hdfin]
        rw [if_pos ⟨hF, by trivial⟩]
        simpa using heq
      · intro x hx
        rw [hne1 x hx, get_set_dep_failed_ne _ _ _ _ hx]
      · intro _
        by_cases hrf : ∃ d' ∈ rest, ∃ dm',
            get_measure (set_dep_failed ms mname d) d' = some dm' ∧
              dm'.state = FAILURE
        · exact hfail1 hrf
        · have hnf : ∀ d' ∈ rest, ∀ dm',
              get_measure (set_dep_failed ms mname d) d' = some dm' →
                dm'.state ≠ FAILURE := by
            intro d' hd' dm' hdm' hc
            exact hrf ⟨d', hd', dm', hdm', hc⟩
          obtain ⟨hms1, hready1, hdepf1⟩ := hnofail1 hnf
          subst hms1
          refine ⟨hready1, ?_, ?_⟩
          · rw [hdepf1]
            exact List.mem_append.mpr (Or.inr (List.mem_singleton.mpr rfl))
          · rw [hgetF, hm0]
            exact ⟨_, rfl, rfl, rfl⟩
      · intro hnone
        exact absurd hF (hnone d (List.mem_cons_self d rest) dm hd)
    · -- head dependency finished and not failed: state unchanged
      obtain ⟨ms1, ready1, depf1, heq, hne1, hfail1, hnofail1⟩ :=
        ih ms ready depf hnotin' hsome
          (fun d' hd' => hall d' (List.mem_cons_of_mem _ hd'))
      refine ⟨ms1, ready1, depf1, ?_, hne1, ?_, ?_⟩
      · simp only [scan_deps, hd, hdfin]
        rw [if_neg (fun hc => hF hc.1)]
        simpa using heq
      · rintro ⟨d', hd', dm', hdm', hF'⟩
        rcases List.mem_cons.mp hd' with rfl | hd'2
        · rw [hd] at hdm'
          exact absurd ((Option.some.injEq _ _ ▸ hdm' : dm = dm') ▸ hF') hF
        · exact hfail1 ⟨d', hd'2, dm', hdm', hF'⟩
      · intro hnone
        exact hnofail1 (fun d' hd' => hnone d' (List.mem_cons_of_mem _ hd'))

/-- The readiness test of the `smart_queue` scan for one measure name: the
measure exists and each of its dependencies resolves to a finished measure
(the `not m.depends_on` shortcut is the vacuous case of `all`). -/
def eligible (ms : List Measure) (n : String) : Bool :=
  match get_measure ms n with
  | none => false
  | some m =>
    m.depends_on.all (fun d =>
      ((get_measure ms d).map (fun dm => dm.finished)).getD false)

/-- Whether a measure has a dependency that resolves to an unfinished
measure. -/
def hasUnfinishedDep (ms : List Measure) (n : String) : Bool :=
  match get_measure ms n with
  | none => false
  | some m =>
    m.depends_on.any (fun d =>
      match get_measure ms d with
      | some dm => !dm.finished
      | none => false)

theorem eligible_eq (ms : List Measure) (n : String) :
    eligible ms n =
      ((get_measure ms n).map (fun m =>
        m.depends_on.all (fun d =>
          ((get_measure ms d).map (fun dm => dm.finished)).getD false))).getD
        false := by
  unfold eligible
  cases get_measure ms n <;> rfl

theorem hasUnfinishedDep_eq (ms : List Measure) (n : String) :
    hasUnfinishedDep ms n =
      ((get_measure ms n).map (fun m =>
        m.depends_on.any (fun d =>
          match get_measure ms d with
          | some dm => !dm.finished
          | none => false))).getD false := by
  unfold hasUnfinishedDep
  cases get_measure ms n <;> rfl

theorem eligible_set_deferred (ms : List Measure) (x n : String) :
    eligible (set_deferred ms x) n = eligible ms n := by
  have hfn : (fun d => ((get_measure (set_deferred ms x) d).map
        (fun dm => dm.finished)).getD false) =
      (fun d => ((get_measure ms d).map (fun dm => dm.finished)).getD false) := by
    funext d
    rw [fin_map_set_deferred]
  rw [eligible_eq, eligible_eq, get_set_deferred, hfn]
  by_cases hnx : n = x
  · rw [if_pos hnx]
    cases get_measure ms n <;> rfl
  · rw [if_neg hnx]

theorem hasUnfinishedDep_set_deferred (ms : List Measure) (x n : String) :
    hasUnfinishedDep (set_deferred ms x) n = hasUnfinishedDep ms n := by
  have hfn : (fun d =>
        match get_measure (set_deferred ms x) d with
        | some dm => !dm.finished
        | none => false) =
      (fun d =>
        match get_measure ms d with
        | some dm => !dm.finished
        | none => false) := by
    funext d
    rw [get_set_deferred]
    by_cases hdx : d = x
    · rw [if_pos hdx]
      cases get_measure ms d <;> rfl
    · rw [if_neg hdx]
  rw [hasUnfinishedDep_eq, hasUnfinishedDep_eq, get_set_deferred, hfn]
  by_cases hnx : n = x
  · rw [if_pos hnx]
    cases get_measure ms n <;> rfl
  · rw [if_neg hnx]

theorem scan_deps_nofailure (mname : String) (pf : Bool) :
    ∀ (deps : List String) (ms : List Measure) (ready : Bool) (depf : List String),
      (∀ d ∈ deps, ∃ dm, get_measure ms d = some dm ∧
        (pf = false → dm.state ≠ FAILURE)) →
      ∃ ms1,
        scan_deps mname pf deps ms ready depf =
          some (ms1,
            ready && deps.all (fun d =>
              ((get_measure ms d).map (fun mm => mm.finished)).getD false),
            depf) ∧
        (ms1 = ms ∨ ms1 = set_deferred ms mname) ∧
        ((∀ d ∈ deps, ∀ dm, get_measure ms d = some dm → dm.finished = true) →
          ms1 = ms) ∧
        ((∃ d ∈ deps, ∃ dm, get_measure ms d = some dm ∧ dm.finished = false) →
          ms1 = set_deferred ms mname) := by
  intro deps
  induction deps with
  | nil =>
    intro ms ready depf _
    refine ⟨ms, by simp [scan_deps], Or.inl rfl, fun _ => rfl, ?_⟩
    rintro ⟨d, hd, -⟩
    exact absurd hd (List.not_mem_nil d)
  | cons d rest ih =>
    intro ms ready depf hall
    obtain ⟨dm, hd, hdns⟩ := hall d (List.mem_cons_self d rest)
    have hcond : ¬(dm.state = FAILURE ∧ pf = false) := fun hc => hdns hc.2 hc.1
    by_cases hdf : dm.finished = true
    · obtain ⟨ms1, heq, hor, hALL, hEX⟩ :=
        ih ms ready depf (fun d' hd' => hall d' (List.mem_cons_of_mem _ hd'))
      refine ⟨ms1, ?_, hor, ?_, ?_⟩
      · simp only [scan_deps, hd, hdf]
        rw [if_neg hcond]
        simp only [if_true]
        rw [heq]
        simp [List.all_cons, hd, hdf]
      · intro hfin
        exact hALL (fun d' hd' => hfin d' (List.mem_cons_of_mem _ hd'))
      · rintro ⟨d', hd', dm', hdm', hdm'f⟩
        rcases List.mem_cons.mp hd' with rfl | hd'2
        · rw [hd] at hdm'
          have h2 : dm = dm' := by injection hdm'
          rw [← h2, hdf] at hdm'f
          exact absurd hdm'f (by simp)
        · exact hEX ⟨d', hd'2, dm', hdm', hdm'f⟩
    · have hdf' : dm.finished = false := by
        cases hfin : dm.finished
        · rfl
        · exact absurd hfin hdf
      have hall' : ∀ d' ∈ rest, ∃ dm',
          get_measure (set_deferred ms mname) d' = some dm' ∧
            (pf = false → dm'.state ≠ FAILURE) := by
        intro d' hd'
        obtain ⟨dm', hdm', hdm'ns⟩ := hall d' (List.mem_cons_of_mem _ hd')
        rw [get_set_deferred]
        split
        · rw [hdm']
          exact ⟨_, rfl, fun hpf hc => by cases hc⟩
        · exact ⟨dm', hdm', hdm'ns⟩
      obtain ⟨ms1, heq, hor, hALL, hEX⟩ :=
        ih (set_deferred ms mname) false depf hall'
      have hms1 : ms1 = set_deferred ms mname := by
        rcases hor with h | h
        · exact h
        · rw [h, set_deferred_idem]
      refine ⟨ms1, ?_, Or.inr hms1, ?_, fun _ => hms1⟩
      · simp only [scan_deps, hd, hdf']
        rw [if_neg hcond]
        simp only [Bool.false_eq_true, if_false]
        rw [heq]
        simp [List.all_cons, hd, hdf']
      · intro hfin
        exact absurd (hfin d (List.mem_cons_self d rest) dm hd) (by rw [hdf']; simp)

/-! ## Behaviour of the `smart_queue` scan -/

theorem scan_queued_mem :
    ∀ (unq : List String) (ms ms2 : List Measure) (q : Option String)
      (depf : List String),
      smart_queue_scan ms unq = some (ms2, q, depf) →
      ∀ n, q = some n → n ∈ unq := by
  intro unq
  induction unq with
  | nil =>
    intro ms ms2 q depf h n hq
    simp only [smart_queue_scan, Option.some.injEq, Prod.mk.injEq] at h
    rw [← h.2.1] at hq
    cases hq
  | cons a rest ih =>
    intro ms ms2 q depf h n hq
    simp only [smart_queue_scan] at h
    split at h
    · cases h
    · split at h
      · simp only [Option.some.injEq, Prod.mk.injEq] at h
        rw [← h.2.1] at hq
        injection hq with hq2
        rw [← hq2]
        exact List.mem_cons_self a rest
      · split at h
        · cases h
        · rename_i ms1 ready depf1 heq1
          split at h
          · simp only [Option.some.injEq, Prod.mk.injEq] at h
            rw [← h.2.1] at hq
            injection hq with hq2
            rw [← hq2]
            exact List.mem_cons_self a rest
          · split at h
            · cases h
            · rename_i ms2' q2 depf2 heq2
              simp only [Option.some.injEq, Prod.mk.injEq] at h
              rw [← h.2.1] at hq
              exact List.mem_cons_of_mem _ (ih _ _ _ _ heq2 n hq)

theorem smart_queue_scan_total :
    ∀ (unq : List String) (ms : List Measure),
      (∀ n ∈ unq, ∃ mm, get_measure ms n = some mm ∧
        ∀ d ∈ mm.depends_on, (get_measure ms d).isSome) →
      ∃ ms2 q depf,
        smart_queue_scan ms unq = some (ms2, q, depf) ∧
        (∀ x, x ∉ unq → get_measure ms2 x = get_measure ms x) ∧
        (∀ x, (get_measure ms2 x).map (fun mm => mm.depends_on) =
          (get_measure ms x).map (fun mm => mm.depends_on)) := by
  intro unq
  induction unq with
  | nil =>
    intro ms _
    exact ⟨ms, none, [], rfl, fun _ _ => rfl, fun _ => rfl⟩
  | cons a rest ih =>
    intro ms hwf
    obtain ⟨m, hm, hdeps⟩ := hwf a (List.mem_cons_self a rest)
    by_cases hde : m.depends_on.isEmpty = true
    · refine ⟨ms, some a, [], ?_, fun _ _ => rfl, fun _ => rfl⟩
      simp only [smart_queue_scan, hm]
      rw [if_pos hde]
    · obtain ⟨ms1, ready1, depf1, heq1, hne1, hdm1⟩ :=
        scan_deps_total a m.dependency_proof m.depends_on ms true [] hdeps
      have hwf1 : ∀ n ∈ rest, ∃ mm, get_measure ms1 n = some mm ∧
          ∀ d ∈ mm.depends_on, (get_measure ms1 d).isSome := by
        intro n hn
        obtain ⟨mm, hmm, hmmdeps⟩ := hwf n (List.mem_cons_of_mem _ hn)
        have h3 := hdm1 n
        rw [hmm] at h3
        cases hg : get_measure ms1 n with
        | none => rw [hg] at h3; cases h3
        | some mm1 =>
          rw [hg] at h3
          simp only [Option.map_some', Option.some.injEq] at h3
          refine ⟨mm1, rfl, ?_⟩
          intro d hd
          rw [isSome_of_map_eq _ (hdm1 d)]
          exact hmmdeps d (h3 ▸ hd)
      by_cases hready : ready1 = true
      · refine ⟨ms1, some a, depf1, ?_, ?_, hdm1⟩
        · simp only [smart_queue_scan, hm]
          rw [if_neg hde, heq1]
          simp only [hready, if_true]
        · intro x hx
          exact hne1 x (fun hc => hx (hc ▸ List.mem_cons_self a rest))
      · have hready' : ready1 = false := by
          cases ready1
          · rfl
          · exact absurd rfl hready
        obtain ⟨ms2, q2, depf2, heq2, hne2, hdm2⟩ := ih ms1 hwf1
        refine ⟨ms2, q2, depf1 ++ depf2, ?_, ?_, ?_⟩
        · simp only [smart_queue_scan, hm]
          rw [if_neg hde, heq1]
          simp only [hready', Bool.false_eq_true, if_false, heq2]
        · intro x hx
          have hxa : x ≠ a := fun hc => hx (hc ▸ List.mem_cons_self a rest)
          have hxr : x ∉ rest := fun hc => hx (List.mem_cons_of_mem _ hc)
          rw [hne2 x hxr, hne1 x hxa]
        · intro x
          rw [hdm2 x, hdm1 x]

/-! ## Structural facts about `smart_queue` and the scheduler step -/

theorem smart_queue_some_inv (ms : List Measure) (unq : List String)
    (r : SQResult) (h : smart_queue ms unq = some r) :
    ∃ ms1 depf, smart_queue_scan ms unq = some (ms1, r.queued, depf) ∧
      r.measures = (match r.queued with
        | some n => set_queued ms1 n
        | none => ms1) ∧
      r.unqueued = depf.foldl (fun u x => list_remove u x)
        (match r.queued with
          | some n => list_remove unq n
          | none => unq) := by
  unfold smart_queue at h
  split at h
  · cases h
  · rename_i ms1 toQueue depFailed heq
    cases h
    exact ⟨ms1, depFailed, heq, rfl, rfl⟩

theorem smart_queue_unqueued_subset (ms : List Measure) (unq : List String)
    (r : SQResult) (h : smart_queue ms unq = some r) :
    ∀ y ∈ r.unqueued, y ∈ unq := by
  obtain ⟨ms1, depf, heq, hmeas, hunq⟩ := smart_queue_some_inv ms unq r h
  intro y hy
  rw [hunq] at hy
  have h2 := mem_fold_remove depf _ hy
  cases hq : r.queued with
  | none => rw [hq] at h2; exact h2
  | some n => rw [hq] at h2; exact mem_of_mem_list_remove h2

theorem smart_queue_queued_mem (ms : List Measure) (unq : List String)
    (r : SQResult) (h : smart_queue ms unq = some r) :
    ∀ n, r.queued = some n → n ∈ unq := by
  obtain ⟨ms1, depf, heq, -, -⟩ := smart_queue_some_inv ms unq r h
  exact scan_queued_mem unq ms ms1 r.queued depf heq

theorem enqueue_go_entries (hostsReg : List (String × Host)) (p : Player)
    (m : Measure) :
    ∀ (hs : List String) (tm : List TaskMapEntry),
      ∀ e ∈ (enqueue_go hostsReg p m hs tm).task_map,
        e ∈ tm ∨ e.measure_name = m.name := by
  intro hs
  induction hs with
  | nil => intro tm e he; exact Or.inl he
  | cons h rest ih =>
    intro tm e he
    rw [enqueue_go] at he
    split at he
    · exact Or.inl he
    · split at he
      · exact Or.inl he
      · rcases ih _ e he with h2 | h2
        · rcases List.mem_append.mp h2 with h3 | h3
          · exact Or.inl h3
          · right
            rw [List.mem_singleton.mp h3]
        · exact Or.inr h2

theorem dispatch_measure_entries (hostsReg : List (String × Host))
    (players : List Player) (m : Measure) :
    ∀ (pns : List String) (tm : List TaskMapEntry),
      ∀ e ∈ pns.foldl
        (fun acc pn =>
          match players.find? (fun p => p.name == pn) with
          | none => acc
          | some p => (Player.enqueue hostsReg p m acc).task_map)
        tm,
        e ∈ tm ∨ e.measure_name = m.name := by
  intro pns
  induction pns with
  | nil => intro tm e he; exact Or.inl he
  | cons pn rest ih =>
    intro tm e he
    rw [List.foldl_cons] at he
    rcases ih _ e he with h2 | h2
    · revert h2
      split
      · exact Or.inl
      · intro h2
        exact enqueue_go_entries hostsReg _ m _ tm e h2
    · exact Or.inr h2

theorem sched_step_preserves_excluded (hostsReg : List (String × Host))
    (players : List Player) (bad : String) (s s1 : SchedState)
    (hstep : sched_step hostsReg players s = some s1)
    (hunq : bad ∉ s.unqueued)
    (htm : ∀ e ∈ s.task_map, e.measure_name ≠ bad) :
    bad ∉ s1.unqueued ∧ ∀ e ∈ s1.task_map, e.measure_name ≠ bad := by
  unfold sched_step at hstep
  split at hstep
  · cases hstep
  · rename_i r hsq
    cases hstep
    refine ⟨fun hc => hunq (smart_queue_unqueued_subset _ _ _ hsq _ hc), ?_⟩
    simp only
    split
    · rename_i n hq
      split
      · rename_i mm hgm
        intro e he
        rcases dispatch_measure_entries hostsReg players mm mm.player_names
          s.task_map e he with h2 | h2
        · exact htm e h2
        · rw [h2, get_measure_name _ _ _ hgm]
          intro hc
          exact hunq (hc ▸ smart_queue_queued_mem _ _ _ hsq n hq)
      · exact htm
    · exact htm

theorem sched_run_preserves_excluded (hostsReg : List (String × Host))
    (players : List Player) (bad : String) :
    ∀ (k : Nat) (s s2 : SchedState),
      sched_run hostsReg players s k = some s2 →
      bad ∉ s.unqueued →
      (∀ e ∈ s.task_map, e.measure_name ≠ bad) →
      bad ∉ s2.unqueued ∧ ∀ e ∈ s2.task_map, e.measure_name ≠ bad := by
  intro k
  induction k with
  | zero =>
    intro s s2 h hunq htm
    rw [sched_run] at h
    cases h
    exact ⟨hunq, htm⟩
  | succ k ih =>
    intro s s2 h hunq htm
    rw [sched_run] at h
    split at h
    · cases h
    · rename_i s3 hstep
      obtain ⟨h1, h2⟩ :=
        sched_step_preserves_excluded hostsReg players bad s s3 hstep hunq htm
      exact ih s3 s2 h h1 h2

/-! ## Claim C3 -/

/-- Executable well-formedness of an unqueued working list: every name is a
measure of the score (the source holds the objects themselves) and every
dependency name resolves (guaranteed at load time by
`ScoreSchema.validate_measure_depends_on`). -/
def wf_unqueued (ms : List Measure) (unq : List String) : Bool :=
  unq.all (fun n =>
    match get_measure ms n with
    | none => false
    | some mm => mm.depends_on.all (fun d => (get_measure ms d).isSome))

/-- Executable test: all of `m`'s dependencies are finished and at least one
of them has state `FAILURE`. -/
def deps_finished_with_failure (ms : List Measure) (m : Measure) : Bool :=
  m.depends_on.all (fun d =>
    match get_measure ms d with
    | some dm => dm.finished
    | none => false) &&
  m.depends_on.any (fun d =>
    match get_measure ms d with
    | some dm => dm.state == FAILURE
    | none => false)

theorem wf_unqueued_spec {ms : List Measure} {unq : List String}
    (h : wf_unqueued ms unq = true) :
    ∀ n ∈ unq, ∃ mm, get_measure ms n = some mm ∧
      ∀ d ∈ mm.depends_on, (get_measure ms d).isSome := by
  intro n hn
  have h2 := List.all_eq_true.mp h n hn
  cases hg : get_measure ms n with
  | none => rw [hg] at h2; cases h2
  | some mm =>
    rw [hg] at h2
    exact ⟨mm, rfl, List.all_eq_true.mp h2⟩

theorem deps_finished_with_failure_spec {ms : List Measure} {m : Measure}
    (h : deps_finished_with_failure ms m = true) :
    (∀ d ∈ m.depends_on, ∃ dm, get_measure ms d = some dm ∧ dm.finished = true) ∧
    (∃ d ∈ m.depends_on, ∃ dm, get_measure ms d = some dm ∧
      dm.state = FAILURE) := by
  rw [deps_finished_with_failure, Bool.and_eq_true] at h
  obtain ⟨hall, hany⟩ := h
  constructor
  · intro d hd
    have h2 := List.all_eq_true.mp hall d hd
    cases hg : get_measure ms d with
    | none => rw [hg] at h2; cases h2
    | some dm =>
      rw [hg] at h2
      exact ⟨dm, rfl, h2⟩
  · obtain ⟨d, hd, hbe⟩ := List.any_eq_true.mp hany
    cases hg : get_measure ms d with
    | none => rw [hg] at hbe; cases hbe
    | some dm =>
      rw [hg] at hbe
      exact ⟨d, hd, dm, hg, beq_iff_eq.mp hbe⟩

/-- C3 (amended): when the Measure `m` at the head of the not-yet-queued list
has `dependency_proof` false, all of its dependencies finished and at least
one of them failed, a `smart_queue` step sets `m.state` to `FAILURE` and
`m.finished` to true, does not queue `m`, and removes `m` from the unqueued
list in that same step; over any number of further scheduler steps `m` stays
out of the unqueued list and no `task_map` entry for `m` is ever recorded.
(The original claim quantified over every such Measure anywhere in the list;
the scan stops at the first queueable Measure, so a later Measure is not
processed in that step — see the counterexample.) -/
theorem smart_queue_dependency_failure
    (hostsReg : List (String × Host)) (players : List Player)
    (s : SchedState) (m : Measure) (rest : List String)
    (h1 : s.unqueued = m.name :: rest)
    (h2 : get_measure s.measures m.name = some m)
    (h3 : m.dependency_proof = false)
    (h4 : m.depends_on ≠ [])
    (h5 : deps_finished_with_failure s.measures m = true)
    (h6 : m.name ∉ m.depends_on)
    (h7 : m.name ∉ rest)
    (h8 : wf_unqueued s.measures rest = true)
    (h9 : ∀ e ∈ s.task_map, e.measure_name ≠ m.name) :
    ∃ r s1,
      smart_queue s.measures s.unqueued = some r ∧
      r.queued ≠ some m.name ∧
      (∃ m1, get_measure r.measures m.name = some m1 ∧
        m1.state = FAILURE ∧ m1.finished = true) ∧
      m.name ∉ r.unqueued ∧
      sched_step hostsReg players s = some s1 ∧
      s1.measures = r.measures ∧
      s1.unqueued = r.unqueued ∧
      (∀ e ∈ s1.task_map, e.measure_name ≠ m.name) ∧
      (∀ k s2, sched_run hostsReg players s1 k = some s2 →
        m.name ∉ s2.unqueued ∧ ∀ e ∈ s2.task_map, e.measure_name ≠ m.name) := by
  obtain ⟨hfin, hfail⟩ := deps_finished_with_failure_spec h5
  have hsomem : (get_measure s.measures m.name).isSome := by rw [h2]; rfl
  obtain ⟨msA, readyA, depfA, heqA, hneA, hfailA, -⟩ :=
    scan_deps_finished m.name m.depends_on s.measures true [] h6 hsomem hfin
  obtain ⟨hreadyA, hmemA, m1, hm1, hm1st, hm1fin⟩ := hfailA hfail
  have hwfA : ∀ n ∈ rest, ∃ mm, get_measure msA n = some mm ∧
      ∀ d ∈ mm.depends_on, (get_measure msA d).isSome := by
    intro n hn
    obtain ⟨mm, hmm, hdeps⟩ := wf_unqueued_spec h8 n hn
    have hne : n ≠ m.name := fun hc => h7 (hc ▸ hn)
    refine ⟨mm, by rw [hneA n hne]; exact hmm, ?_⟩
    intro d hd
    by_cases hdm : d = m.name
    · rw [hdm, hm1]; rfl
    · rw [hneA d hdm]; exact hdeps d hd
  obtain ⟨msB, qB, depfB, heqB, hneB, hdmB⟩ := smart_queue_scan_total rest msA hwfA
  have hdeFalse : m.depends_on.isEmpty = false := by
    cases hdp : m.depends_on
    · exact absurd hdp h4
    · rfl
  have hscan : smart_queue_scan s.measures (m.name :: rest) =
      some (msB, qB, depfA ++ depfB) := by
    simp only [smart_queue_scan, h2]
    rw [hdeFalse]
    simp only [Bool.false_eq_true, if_false, h3, heqA, hreadyA, heqB]
  have hqBmem : ∀ n, qB = some n → n ∈ rest :=
    scan_queued_mem rest msA msB qB depfB heqB
  have hqBne : qB ≠ some m.name := by
    intro hc
    exact h7 (hqBmem m.name hc)
  have hgetB : get_measure msB m.name = some m1 := by
    rw [hneB m.name h7, hm1]
  -- the two shapes produced by smart_queue, by cases on what was queued
  cases hqB : qB with
  | none =>
    have hsq : smart_queue s.measures s.unqueued =
        some ⟨msB, (depfA ++ depfB).foldl (fun u x => list_remove u x)
          (m.name :: rest), none⟩ := by
      rw [h1]
      unfold smart_queue
      rw [hscan, hqB]
    have hnotin2 : m.name ∉ (depfA ++ depfB).foldl
        (fun u x => list_remove u x) (m.name :: rest) :=
      fold_remove_kills_head m.name (depfA ++ depfB) rest
        (List.mem_append.mpr (Or.inl hmemA)) h7
    have hstep : sched_step hostsReg players s =
        some ⟨msB, (depfA ++ depfB).foldl (fun u x => list_remove u x)
          (m.name :: rest), s.task_map⟩ := by
      unfold sched_step
      rw [hsq]
    refine ⟨_, _, hsq, by rw [hqB] at hqBne; exact hqBne, ⟨m1, hgetB, hm1st, hm1fin⟩,
      hnotin2, hstep, rfl, rfl, h9, ?_⟩
    intro k s2 hrun
    exact sched_run_preserves_excluded hostsReg players m.name k _ s2 hrun
      hnotin2 h9
  | some nq =>
    have hnqmem : nq ∈ rest := hqBmem nq hqB
    have hnqne : nq ≠ m.name := fun hc => h7 (hc ▸ hnqmem)
    have hunq1 : list_remove (m.name :: rest) nq = m.name :: list_remove rest nq :=
      list_remove_cons_ne m.name nq rest (fun hc => hnqne hc.symm)
    have hsq : smart_queue s.measures s.unqueued =
        some ⟨set_queued msB nq, (depfA ++ depfB).foldl
          (fun u x => list_remove u x) (list_remove (m.name :: rest) nq),
          some nq⟩ := by
      rw [h1]
      unfold smart_queue
      rw [hscan, hqB]
    have hgetC : get_measure (set_queued msB nq) m.name = some m1 := by
      rw [get_set_queued_ne msB nq m.name (Ne.symm hnqne)]
      exact hgetB
    have hnotin2 : m.name ∉ (depfA ++ depfB).foldl
        (fun u x => list_remove u x) (list_remove (m.name :: rest) nq) := by
      rw [hunq1]
      exact fold_remove_kills_head m.name (depfA ++ depfB)
        (list_remove rest nq)
        (List.mem_append.mpr (Or.inl hmemA))
        (not_mem_list_remove h7)
    -- the task map after dispatching nq
    have htm1 : ∀ tm1, (match get_measure (set_queued msB nq) nq with
        | some mm => dispatch_measure hostsReg players mm s.task_map
        | none => s.task_map) = tm1 →
        ∀ e ∈ tm1, e.measure_name ≠ m.name := by
      intro tm1 htm1eq e he
      rw [← htm1eq] at he
      revert he
      split
      · rename_i mm hgm
        intro he
        rcases dispatch_measure_entries hostsReg players mm mm.player_names
          s.task_map e he with hh | hh
        · exact h9 e hh
        · rw [hh, get_measure_name _ _ _ hgm]
          exact hnqne
      · intro he
        exact h9 e he
    have hstep : sched_step hostsReg players s =
        some ⟨set_queued msB nq, (depfA ++ depfB).foldl
          (fun u x => list_remove u x) (list_remove (m.name :: rest) nq),
          match get_measure (set_queued msB nq) nq with
          | some mm => dispatch_measure hostsReg players mm s.task_map
          | none => s.task_map⟩ := by
      unfold sched_step
      rw [hsq]
    refine ⟨_, _, hsq, by rw [hqB] at hqBne; exact hqBne,
      ⟨m1, hgetC, hm1st, hm1fin⟩, hnotin2, hstep, rfl, rfl,
      htm1 _ rfl, ?_⟩
    intro k s2 hrun
    exact sched_run_preserves_excluded hostsReg players m.name k _ s2 hrun
      hnotin2 (htm1 _ rfl)

/-- A concrete measure with only the scheduling-relevant fields varying. -/
def cm3 (n : String) (deps : List String) (st : TaskState) (fin : Bool) :
    Measure :=
  { name := n
    player_names := []
    depends_on := deps
    dependency_proof := false
    lazy_fetch_stored := false
    local_measure := false
    state := st
    finished := fin
    status_all := none
    celery_group_tasks := [] }

/-- The dependent measure of the C3 instances: depends on the failed `C`. -/
def mB3 : Measure := cm3 "B" ["C"] PENDING false

/-- Measures for the C3 counterexample: `A` has no dependencies, `B` depends
on `C`, and `C` finished with `FAILURE`. -/
def ms3 : List Measure :=
  [cm3 "A" [] PENDING false, mB3, cm3 "C" [] FAILURE true]

/-- C3 counterexample: with `unqueued = [A, B]`, `B`'s dependency `C` has
state `FAILURE` and `B` lacks `dependency_proof`, yet the `smart_queue` step
queues `A`, stops scanning, and leaves `B` untouched: still `PENDING`, not
finished, and still in the unqueued list — contradicting the claim that every
such measure is failed and removed in that same step. -/
theorem smart_queue_dependency_failure_counterexample :
    deps_finished_with_failure ms3 mB3 = true ∧
    mB3.dependency_proof = false ∧
    (smart_queue ms3 ["A", "B"]).map
        (fun r => (r.queued, r.unqueued, get_measure r.measures "B")) =
      some (some "A", ["B"], some mB3) :=
  ⟨rfl, rfl, rfl⟩

/-- Scheduler state for the C3 witness: `B` at the head of the unqueued
list. -/
def sched3 : SchedState := { measures := ms3, unqueued := ["B"], task_map := [] }

/-- Witness for C3 (amended) at `sched3`. -/
theorem smart_queue_dependency_failure_witness :
    (sched3.unqueued = mB3.name :: []) ∧
    (get_measure sched3.measures mB3.name = some mB3) ∧
    (mB3.dependency_proof = false) ∧
    (mB3.depends_on ≠ []) ∧
    (deps_finished_with_failure sched3.measures mB3 = true) ∧
    (mB3.name ∉ mB3.depends_on) ∧
    (mB3.name ∉ ([] : List String)) ∧
    (wf_unqueued sched3.measures [] = true) ∧
    (∀ e ∈ sched3.task_map, e.measure_name ≠ mB3.name) ∧
    (∃ r s1,
      smart_queue sched3.measures sched3.unqueued = some r ∧
      r.queued ≠ some mB3.name ∧
      (∃ m1, get_measure r.measures mB3.name = some m1 ∧
        m1.state = FAILURE ∧ m1.finished = true) ∧
      mB3.name ∉ r.unqueued ∧
      sched_step [] [] sched3 = some s1 ∧
      s1.measures = r.measures ∧
      s1.unqueued = r.unqueued ∧
      (∀ e ∈ s1.task_map, e.measure_name ≠ mB3.name) ∧
      (∀ k s2, sched_run [] [] s1 k = some s2 →
        mB3.name ∉ s2.unqueued ∧
          ∀ e ∈ s2.task_map, e.measure_name ≠ mB3.name)) :=
  ⟨rfl, rfl, rfl, by decide, rfl, by decide, by decide, rfl,
    fun e he => absurd he (List.not_mem_nil e),
    smart_queue_dependency_failure [] [] sched3 mB3 [] rfl rfl rfl (by decide)
      rfl (by decide) (by decide) rfl
      (fun e he => absurd he (List.not_mem_nil e))⟩

/-! ## Claim C4 -/

theorem wfs_set_deferred (ms : List Measure) (a : String) (l : List String)
    (W1 : ∀ n ∈ l, (get_measure ms n).isSome)
    (W2 : ∀ n ∈ l, ∀ mm, get_measure ms n = some mm →
      ∀ d ∈ mm.depends_on, (get_measure ms d).isSome)
    (W3 : ∀ n ∈ l, ∀ mm, get_measure ms n = some mm →
      mm.dependency_proof = false →
      ∀ d ∈ mm.depends_on, ∀ dm, get_measure ms d = some dm →
        dm.state ≠ FAILURE) :
    (∀ n ∈ l, (get_measure (set_deferred ms a) n).isSome) ∧
    (∀ n ∈ l, ∀ mm, get_measure (set_deferred ms a) n = some mm →
      ∀ d ∈ mm.depends_on, (get_measure (set_deferred ms a) d).isSome) ∧
    (∀ n ∈ l, ∀ mm, get_measure (set_deferred ms a) n = some mm →
      mm.dependency_proof = false →
      ∀ d ∈ mm.depends_on, ∀ dm, get_measure (set_deferred ms a) d = some dm →
        dm.state ≠ FAILURE) := by
  have hdeps : ∀ n mm, get_measure (set_deferred ms a) n = some mm →
      ∃ mm0, get_measure ms n = some mm0 ∧
        mm.depends_on = mm0.depends_on ∧
        mm.dependency_proof = mm0.dependency_proof ∧
        (mm.state = mm0.state ∨ mm.state = DEFERRED) := by
    intro n mm hmm
    rw [get_set_deferred] at hmm
    by_cases hna : n = a
    · rw [if_pos hna] at hmm
      cases hg : get_measure ms n with
      | none => rw [hg] at hmm; cases hmm
      | some mm0 =>
        rw [hg, Option.map_some'] at hmm
        injection hmm with h2
        exact ⟨mm0, rfl, by rw [← h2], by rw [← h2], Or.inr (by rw [← h2])⟩
    · rw [if_neg hna] at hmm
      exact ⟨mm, hmm, rfl, rfl, Or.inl rfl⟩
  have hiso : ∀ d, (get_measure (set_deferred ms a) d).isSome =
      (get_measure ms d).isSome :=
    fun d => isSome_of_map_eq _ (deps_map_set_deferred ms a d)
  refine ⟨?_, ?_, ?_⟩
  · intro n hn
    rw [hiso n]
    exact W1 n hn
  · intro n hn mm hmm d hd
    obtain ⟨mm0, hmm0, hdeq, -, -⟩ := hdeps n mm hmm
    rw [hiso d]
    exact W2 n hn mm0 hmm0 d (hdeq ▸ hd)
  · intro n hn mm hmm hpf d hd dm hdm
    obtain ⟨mm0, hmm0, hdeq, hpeq, -⟩ := hdeps n mm hmm
    obtain ⟨dm0, hdm0, -, -, hsteq⟩ := hdeps d dm hdm
    rcases hsteq with h | h
    · rw [h]
      exact W3 n hn mm0 hmm0 (hpeq ▸ hpf) d (hdeq ▸ hd) dm0 hdm0
    · rw [h]
      decide

theorem smart_queue_scan_nofailure :
    ∀ (unq : List String) (ms : List Measure),
      (∀ n ∈ unq, (get_measure ms n).isSome) →
      (∀ n ∈ unq, ∀ mm, get_measure ms n = some mm →
        ∀ d ∈ mm.depends_on, (get_measure ms d).isSome) →
      (∀ n ∈ unq, ∀ mm, get_measure ms n = some mm →
        mm.dependency_proof = false →
        ∀ d ∈ mm.depends_on, ∀ dm, get_measure ms d = some dm →
          dm.state ≠ FAILURE) →
      ∃ ms2,
        smart_queue_scan ms unq =
          some (ms2, unq.find? (fun n => eligible ms n), []) ∧
        (∀ x, get_measure ms2 x = get_measure ms x ∨
          ∃ mm, get_measure ms x = some mm ∧
            get_measure ms2 x = some { mm with state := DEFERRED }) ∧
        (∀ p ∈ unq.takeWhile (fun n => !(eligible ms n)),
          hasUnfinishedDep ms p = true →
          ∃ m1, get_measure ms2 p = some m1 ∧ m1.state = DEFERRED) := by
  intro unq
  induction unq with
  | nil =>
    intro ms _ _ _
    exact ⟨ms, rfl, fun _ => Or.inl rfl,
      fun p hp => absurd hp (List.not_mem_nil p)⟩
  | cons a rest ih =>
    intro ms W1 W2 W3
    obtain ⟨m, hm⟩ := Option.isSome_iff_exists.mp (W1 a (List.mem_cons_self a rest))
    have helig : eligible ms a = m.depends_on.all (fun d =>
        ((get_measure ms d).map (fun dm => dm.finished)).getD false) := by
      rw [eligible_eq, hm]
      rfl
    by_cases hde : m.depends_on.isEmpty = true
    · have hdeps_nil : m.depends_on = [] := by
        cases hdp : m.depends_on
        · rfl
        · rw [hdp] at hde; cases hde
      have heliga : eligible ms a = true := by
        rw [helig, hdeps_nil]
        rfl
      refine ⟨ms, ?_, fun _ => Or.inl rfl, ?_⟩
      · simp only [smart_queue_scan, hm]
        rw [if_pos hde, List.find?_cons_of_pos _ heliga]
      · intro p hp
        rw [List.takeWhile_cons] at hp
        rw [heliga] at hp
        simp at hp
    · have hdnf : ∀ d ∈ m.depends_on, ∃ dm, get_measure ms d = some dm ∧
          (m.dependency_proof = false → dm.state ≠ FAILURE) := by
        intro d hd
        obtain ⟨dm, hdm⟩ := Option.isSome_iff_exists.mp
          (W2 a (List.mem_cons_self a rest) m hm d hd)
        exact ⟨dm, hdm,
          fun hpf => W3 a (List.mem_cons_self a rest) m hm hpf d hd dm hdm⟩
      obtain ⟨ms1, heq1, hor1, hALL1, hEX1⟩ :=
        scan_deps_nofailure a m.dependency_proof m.depends_on ms true [] hdnf
      by_cases hel : eligible ms a = true
      · have hfin : ∀ d ∈ m.depends_on, ∀ dm, get_measure ms d = some dm →
            dm.finished = true := by
          intro d hd dm hdm
          have h2 := List.all_eq_true.mp (by rw [← helig]; exact hel) d hd
          rw [hdm] at h2
          exact h2
        have hms1 : ms1 = ms := hALL1 hfin
        refine ⟨ms, ?_, fun _ => Or.inl rfl, ?_⟩
        · simp only [smart_queue_scan, hm]
          rw [if_neg hde, heq1, hms1]
          have hready : (true && m.depends_on.all (fun d =>
              ((get_measure ms d).map (fun mm => mm.finished)).getD false)) =
              true := by
            rw [Bool.true_and, ← helig]
            exact hel
          rw [hready]
          simp only [if_true]
          rw [List.find?_cons_of_pos _ hel]
        · intro p hp
          rw [List.takeWhile_cons] at hp
          rw [hel] at hp
          simp at hp
      · have hel' : eligible ms a = false := by
          cases h : eligible ms a
          · rfl
          · exact absurd h hel
        have hready : (true && m.depends_on.all (fun d =>
            ((get_measure ms d).map (fun mm => mm.finished)).getD false)) =
            false := by
          rw [Bool.true_and, ← helig]
          exact hel'
        -- transfer the well-formedness hypotheses to the scanned state
        have hW' : (∀ n ∈ rest, (get_measure ms1 n).isSome) ∧
            (∀ n ∈ rest, ∀ mm, get_measure ms1 n = some mm →
              ∀ d ∈ mm.depends_on, (get_measure ms1 d).isSome) ∧
            (∀ n ∈ rest, ∀ mm, get_measure ms1 n = some mm →
              mm.dependency_proof = false →
              ∀ d ∈ mm.depends_on, ∀ dm, get_measure ms1 d = some dm →
                dm.state ≠ FAILURE) := by
          rcases hor1 with h | h
          · subst h
            exact ⟨fun n hn => W1 n (List.mem_cons_of_mem _ hn),
              fun n hn => W2 n (List.mem_cons_of_mem _ hn),
              fun n hn => W3 n (List.mem_cons_of_mem _ hn)⟩
          · subst h
            exact wfs_set_deferred ms a rest
              (fun n hn => W1 n (List.mem_cons_of_mem _ hn))
              (fun n hn => W2 n (List.mem_cons_of_mem _ hn))
              (fun n hn => W3 n (List.mem_cons_of_mem _ hn))
        obtain ⟨hW1', hW2', hW3'⟩ := hW'
        obtain ⟨ms2, heq2, hper2, htW2⟩ := ih ms1 hW1' hW2' hW3'
        have heligfn : ∀ n, eligible ms1 n = eligible ms n := by
          intro n
          rcases hor1 with h | h
          · rw [h]
          · rw [h, eligible_set_deferred]
        have hunffn : ∀ p, hasUnfinishedDep ms1 p = hasUnfinishedDep ms p := by
          intro p
          rcases hor1 with h | h
          · rw [h]
          · rw [h, hasUnfinishedDep_set_deferred]
        simp only [heligfn] at heq2 htW2
        -- per-name relation between ms1 and ms
        have hper1 : ∀ x, get_measure ms1 x = get_measure ms x ∨
            ∃ mm, get_measure ms x = some mm ∧
              get_measure ms1 x = some { mm with state := DEFERRED } := by
          intro x
          rcases hor1 with h | h
          · rw [h]; exact Or.inl rfl
          · rw [h, get_set_deferred]
            by_cases hxa : x = a
            · rw [if_pos hxa]
              cases hg : get_measure ms x with
              | none => exact Or.inl rfl
              | some mm => exact Or.inr ⟨mm, rfl, rfl⟩
            · rw [if_neg hxa]
              exact Or.inl rfl
        refine ⟨ms2, ?_, ?_, ?_⟩
        · simp only [smart_queue_scan, hm]
          rw [if_neg hde, heq1, hready]
          simp only [Bool.false_eq_true, if_false]
          rw [heq2]
          rw [List.find?_cons_of_neg _ (by rw [hel']; simp)]
          rfl
        · intro x
          rcases hper2 x with h2 | ⟨mm1, hmm1, h2⟩
          · rcases hper1 x with h1 | ⟨mm, hmm, h1⟩
            · exact Or.inl (h2.trans h1)
            · exact Or.inr ⟨mm, hmm, h2.trans h1⟩
          · rcases hper1 x with h1 | ⟨mm, hmm, h1⟩
            · rw [h1] at hmm1
              exact Or.inr ⟨mm1, hmm1, h2⟩
            · rw [h1] at hmm1
              injection hmm1 with h3
              refine Or.inr ⟨mm, hmm, ?_⟩
              rw [h2, ← h3]
        · intro p hp hunf
          rw [List.takeWhile_cons] at hp
          rw [hel'] at hp
          simp only [Bool.not_false, if_true] at hp
          rcases List.mem_cons.mp hp with rfl | hp2
          · have hexu : ∃ d ∈ m.depends_on, ∃ dm,
                get_measure ms d = some dm ∧ dm.finished = false := by
              rw [hasUnfinishedDep_eq, hm] at hunf
              obtain ⟨d, hd, hdb⟩ := List.any_eq_true.mp hunf
              cases hg : get_measure ms d with
              | none => rw [hg] at hdb; cases hdb
              | some dm =>
                rw [hg] at hdb
                exact ⟨d, hd, dm, hg, by rwa [Bool.not_eq_true'] at hdb⟩
            have hms1 : ms1 = set_deferred ms p := hEX1 hexu
            have hget1 : get_measure ms1 p = some { m with state := DEFERRED } := by
              rw [hms1, get_set_deferred, if_pos rfl, hm]
              rfl
            rcases hper2 p with h2 | ⟨mm1, hmm1, h2⟩
            · exact ⟨_, by rw [h2]; exact hget1, rfl⟩
            · exact ⟨_, h2, rfl⟩
          · exact htW2 p hp2 (by rw [hunffn p]; exact hunf)

/-- The scenario measure `A(depends_on=[])` with varying mutable state. -/
def scenA (st : TaskState) (fin : Bool) : Measure := cm3 "A" [] st fin

/-- The scenario measure `B(depends_on=["A"])` with varying mutable state. -/
def scenB (st : TaskState) (fin : Bool) : Measure := cm3 "B" ["A"] st fin

/-- Measures for the C4 counterexample: `B` depends on `C`, which finished
with state `FAILURE`. -/
def ms4 : List Measure := [mB3, cm3 "C" [] FAILURE true]

/-- C4 counterexample: `B` is the first not-yet-queued measure and all of its
dependencies are finished (`eligible` is the claim's readiness test), yet the
`smart_queue` step queues nothing, because the finished dependency has state
`FAILURE` and `B` lacks `dependency_proof` — contradicting "queues the first
one that either has no dependencies or all of whose dependencies are
finished". -/
theorem smart_queue_first_eligible_counterexample :
    eligible ms4 "B" = true ∧
    mB3.dependency_proof = false ∧
    (smart_queue ms4 ["B"]).map SQResult.queued = some none :=
  ⟨rfl, rfl, rfl⟩

/-- C4 (amended): provided no scanned measure has a failed dependency it is
not proof against (such measures are failed and removed instead — claim C3),
each `smart_queue` step queues at most one Measure, namely the first
not-yet-queued one whose dependencies are all finished (vacuously, one with
no dependencies); every measure scanned before it that has an unfinished
dependency is set to `DEFERRED`; no other measure enters the `QUEUED` state
in that step.  Consequently, for `[A(depends_on=[]), B(depends_on=["A"])]`,
a step with both unqueued always queues `A`, and a step scanning `B` queues
it exactly when `A.finished` is true (and `A` did not fail). -/
theorem smart_queue_first_eligible
    (ms : List Measure) (unq : List String)
    (W1 : ∀ n ∈ unq, (get_measure ms n).isSome)
    (W2 : ∀ n ∈ unq, ∀ mm, get_measure ms n = some mm →
      ∀ d ∈ mm.depends_on, (get_measure ms d).isSome)
    (W3 : ∀ n ∈ unq, ∀ mm, get_measure ms n = some mm →
      mm.dependency_proof = false →
      ∀ d ∈ mm.depends_on, ∀ dm, get_measure ms d = some dm →
        dm.state ≠ FAILURE) :
    (∃ r, smart_queue ms unq = some r ∧
      r.queued = unq.find? (fun n => eligible ms n) ∧
      (∀ p ∈ unq.takeWhile (fun n => !(eligible ms n)),
        hasUnfinishedDep ms p = true →
        ∃ m1, get_measure r.measures p = some m1 ∧ m1.state = DEFERRED) ∧
      (∀ x m1, get_measure r.measures x = some m1 → m1.state = QUEUED →
        r.queued = some x ∨
          ∃ m0, get_measure ms x = some m0 ∧ m0.state = QUEUED)) ∧
    (∀ (sa sb : TaskState) (fa fb : Bool),
      (smart_queue [scenA sa fa, scenB sb fb] ["A", "B"]).map SQResult.queued =
        some (some "A")) ∧
    (∀ (sa sb : TaskState) (fa fb : Bool),
      (smart_queue [scenA sa fa, scenB sb fb] ["B"]).map SQResult.queued =
        some (if fa = true ∧ sa ≠ FAILURE then some "B" else none)) := by
  refine ⟨?_, by decide, by decide⟩
  obtain ⟨ms2, hscan, hper, htw⟩ := smart_queue_scan_nofailure unq ms W1 W2 W3
  cases hq : unq.find? (fun n => eligible ms n) with
  | none =>
    rw [hq] at hscan
    have hsq : smart_queue ms unq = some ⟨ms2, unq, none⟩ := by
      unfold smart_queue
      rw [hscan]
      rfl
    refine ⟨⟨ms2, unq, none⟩, hsq, rfl, htw, ?_⟩
    intro x m1 hg hqd
    rcases hper x with h | ⟨mm, hmm, h⟩
    · rw [h] at hg
      exact Or.inr ⟨m1, hg, hqd⟩
    · rw [h] at hg
      injection hg with h2
      rw [← h2] at hqd
      exact absurd (show DEFERRED = QUEUED from hqd) (by decide)
  | some nq =>
    rw [hq] at hscan
    have helignq : eligible ms nq = true := List.find?_some hq
    have hsq : smart_queue ms unq =
        some ⟨set_queued ms2 nq, list_remove unq nq, some nq⟩ := by
      unfold smart_queue
      rw [hscan]
      rfl
    refine ⟨_, hsq, rfl, ?_, ?_⟩
    · intro p hp hu
      have hpne : p ≠ nq := by
        intro hc
        have hpel := List.mem_takeWhile_imp hp
        rw [hc, helignq] at hpel
        cases hpel
      obtain ⟨m1, hg1, hst⟩ := htw p hp hu
      refine ⟨m1, ?_, hst⟩
      rw [get_set_queued_ne ms2 nq p hpne]
      exact hg1
    · intro x m1 hg hqd
      by_cases hxnq : x = nq
      · exact Or.inl (by rw [hxnq])
      · rw [get_set_queued_ne ms2 nq x hxnq] at hg
        rcases hper x with h | ⟨mm, hmm, h⟩
        · rw [h] at hg
          exact Or.inr ⟨m1, hg, hqd⟩
        · rw [h] at hg
          injection hg with h2
          rw [← h2] at hqd
          exact absurd (show DEFERRED = QUEUED from hqd) (by decide)

/-- Measures for the C4 witness: the scenario pair, both pending. -/
def msW : List Measure := [scenA PENDING false, scenB PENDING false]

/-- Witness for C4 (amended) at `msW` with both measures unqueued. -/
theorem smart_queue_first_eligible_witness :
    (∀ n ∈ ["A", "B"], (get_measure msW n).isSome) ∧
    (∀ n ∈ ["A", "B"], ∀ mm, get_measure msW n = some mm →
      ∀ d ∈ mm.depends_on, (get_measure msW d).isSome) ∧
    (∀ n ∈ ["A", "B"], ∀ mm, get_measure msW n = some mm →
      mm.dependency_proof = false →
      ∀ d ∈ mm.depends_on, ∀ dm, get_measure msW d = some dm →
        dm.state ≠ FAILURE) ∧
    ((∃ r, smart_queue msW ["A", "B"] = some r ∧
      r.queued = List.find? (fun n => eligible msW n) ["A", "B"] ∧
      (∀ p ∈ List.takeWhile (fun n => !(eligible msW n)) ["A", "B"],
        hasUnfinishedDep msW p = true →
        ∃ m1, get_measure r.measures p = some m1 ∧ m1.state = DEFERRED) ∧
      (∀ x m1, get_measure r.measures x = some m1 → m1.state = QUEUED →
        r.queued = some x ∨
          ∃ m0, get_measure msW x = some m0 ∧ m0.state = QUEUED)) ∧
    (∀ (sa sb : TaskState) (fa fb : Bool),
      (smart_queue [scenA sa fa, scenB sb fb] ["A", "B"]).map SQResult.queued =
        some (some "A")) ∧
    (∀ (sa sb : TaskState) (fa fb : Bool),
      (smart_queue [scenA sa fa, scenB sb fb] ["B"]).map SQResult.queued =
        some (if fa = true ∧ sa ≠ FAILURE then some "B" else none))) := by
  have hA : get_measure msW "A" = some (scenA PENDING false) := rfl
  have hB : get_measure msW "B" = some (scenB PENDING false) := rfl
  have hW1 : ∀ n ∈ ["A", "B"], (get_measure msW n).isSome := by decide
  have hW2 : ∀ n ∈ ["A", "B"], ∀ mm, get_measure msW n = some mm →
      ∀ d ∈ mm.depends_on, (get_measure msW d).isSome := by
    intro n hn mm hmm d hd
    rcases List.mem_cons.mp hn with rfl | hn2
    · rw [hA] at hmm
      injection hmm with h2
      rw [← h2] at hd
      exact absurd hd (List.not_mem_nil d)
    · rcases List.mem_cons.mp hn2 with rfl | hn3
      · rw [hB] at hmm
        injection hmm with h2
        rw [← h2] at hd
        rcases List.mem_singleton.mp hd with rfl
        rw [hA]
        rfl
      · exact absurd hn3 (List.not_mem_nil n)
  have hW3 : ∀ n ∈ ["A", "B"], ∀ mm, get_measure msW n = some mm →
      mm.dependency_proof = false →
      ∀ d ∈ mm.depends_on, ∀ dm, get_measure msW d = some dm →
        dm.state ≠ FAILURE := by
    intro n hn mm hmm _ d hd dm hdm
    rcases List.mem_cons.mp hn with rfl | hn2
    · rw [hA] at hmm
      injection hmm with h2
      rw [← h2] at hd
      exact absurd hd (List.not_mem_nil d)
    · rcases List.mem_cons.mp hn2 with rfl | hn3
      · rw [hB] at hmm
        injection hmm with h2
        rw [← h2] at hd
        rcases List.mem_singleton.mp hd with rfl
        rw [hA] at hdm
        injection hdm with h3
        rw [← h3]
        decide
      · exact absurd hn3 (List.not_mem_nil n)
  exact ⟨hW1, hW2, hW3, smart_queue_first_eligible msW ["A", "B"] hW1 hW2 hW3⟩

end Johann
